import Mathlib

/-!
# Verification of the ha-sync reconciliation engine

A shallow embedding of the core of `ha_sync` (normalizer, rename detector,
reconciliation engine, result model, CLI outcome) in Lean 4, with theorems
settling the specification claims.

Conventions of the embedding:
* Python/YAML values are modelled by `Val` (strings, integers, booleans,
  null, lists, string-keyed mappings).  Python `dict`s are association
  lists that preserve insertion order; assignment to an existing key
  replaces the value in place (`dinsert` / `recInsert`).
* Python `dict` equality (`==`/`!=`) ignores key order at every nesting
  level; it is modelled by comparing order-canonicalized values
  (`Val.canon`, `pyEqRec`).
* Fallible code is modelled with `Option`/`Except`; the external stores and
  the filesystem are explicit list-valued states, and the success/failure
  of external calls is an oracle parameter.
-/

namespace HaSync

/-- A YAML/JSON-like value as handled by the Python code (`load_yaml`
produces nested dicts/lists/scalars).  Floats do not occur in the claims
under verification and are not modelled. -/
inductive Val where
  | str (s : String)
  | int (n : Int)
  | bool (b : Bool)
  | null
  | list (xs : List Val)
  | map (kvs : List (String × Val))
  deriving Repr

mutual

/-- Decidable equality for `Val` (the nested inductive needs it by hand). -/
def Val.decEq : (a b : Val) → Decidable (a = b)
  | .str a, .str b =>
      if h : a = b then .isTrue (by rw [h]) else .isFalse (by simp [h])
  | .int a, .int b =>
      if h : a = b then .isTrue (by rw [h]) else .isFalse (by simp [h])
  | .bool a, .bool b =>
      if h : a = b then .isTrue (by rw [h]) else .isFalse (by simp [h])
  | .null, .null => .isTrue rfl
  | .list xs, .list ys =>
      match Val.decEqList xs ys with
      | .isTrue h => .isTrue (by rw [h])
      | .isFalse h => .isFalse (by simp [h])
  | .map xs, .map ys =>
      match Val.decEqPairs xs ys with
      | .isTrue h => .isTrue (by rw [h])
      | .isFalse h => .isFalse (by simp [h])
  | .str _, .int _ => .isFalse (by simp)
  | .str _, .bool _ => .isFalse (by simp)
  | .str _, .null => .isFalse (by simp)
  | .str _, .list _ => .isFalse (by simp)
  | .str _, .map _ => .isFalse (by simp)
  | .int _, .str _ => .isFalse (by simp)
  | .int _, .bool _ => .isFalse (by simp)
  | .int _, .null => .isFalse (by simp)
  | .int _, .list _ => .isFalse (by simp)
  | .int _, .map _ => .isFalse (by simp)
  | .bool _, .str _ => .isFalse (by simp)
  | .bool _, .int _ => .isFalse (by simp)
  | .bool _, .null => .isFalse (by simp)
  | .bool _, .list _ => .isFalse (by simp)
  | .bool _, .map _ => .isFalse (by simp)
  | .null, .str _ => .isFalse (by simp)
  | .null, .int _ => .isFalse (by simp)
  | .null, .bool _ => .isFalse (by simp)
  | .null, .list _ => .isFalse (by simp)
  | .null, .map _ => .isFalse (by simp)
  | .list _, .str _ => .isFalse (by simp)
  | .list _, .int _ => .isFalse (by simp)
  | .list _, .bool _ => .isFalse (by simp)
  | .list _, .null => .isFalse (by simp)
  | .list _, .map _ => .isFalse (by simp)
  | .map _, .str _ => .isFalse (by simp)
  | .map _, .int _ => .isFalse (by simp)
  | .map _, .bool _ => .isFalse (by simp)
  | .map _, .null => .isFalse (by simp)
  | .map _, .list _ => .isFalse (by simp)

/-- Decidable equality for lists of values. -/
def Val.decEqList : (xs ys : List Val) → Decidable (xs = ys)
  | [], [] => .isTrue rfl
  | [], _ :: _ => .isFalse (by simp)
  | _ :: _, [] => .isFalse (by simp)
  | x :: xs, y :: ys =>
      match Val.decEq x y, Val.decEqList xs ys with
      | .isTrue h1, .isTrue h2 => .isTrue (by rw [h1, h2])
      | .isFalse h1, _ => .isFalse (by simp [h1])
      | _, .isFalse h2 => .isFalse (by simp [h2])

/-- Decidable equality for record entry lists. -/
def Val.decEqPairs : (xs ys : List (String × Val)) → Decidable (xs = ys)
  | [], [] => .isTrue rfl
  | [], _ :: _ => .isFalse (by simp)
  | _ :: _, [] => .isFalse (by simp)
  | (k, v) :: xs, (k', v') :: ys =>
      match String.decEq k k', Val.decEq v v', Val.decEqPairs xs ys with
      | .isTrue h0, .isTrue h1, .isTrue h2 => .isTrue (by rw [h0, h1, h2])
      | .isFalse h0, _, _ => .isFalse (by simp [h0])
      | _, .isFalse h1, _ => .isFalse (by simp [h1])
      | _, _, .isFalse h2 => .isFalse (by simp [h2])

end

instance : DecidableEq Val := Val.decEq

/-- A record: a Python `dict` with string keys, in insertion order. -/
abbrev Rec := List (String × Val)

/-- Python truthiness of a value (`if data:`, `if not config:` …). -/
def Val.truthy : Val → Bool
  | .str s => s ≠ ""
  | .int n => n ≠ 0
  | .bool b => b
  | .null => false
  | .list xs => ¬xs.isEmpty
  | .map kvs => ¬kvs.isEmpty

/-- Is the value a mapping (`isinstance(data, dict)`)? -/
def Val.isMap : Val → Bool
  | .map _ => true
  | _ => false

/-- `d.get(k)` on a record: the value at the first occurrence of key `k`. -/
def recLookup (r : Rec) (k : String) : Option Val :=
  match r with
  | [] => none
  | (k', v) :: rest => if k' = k then some v else recLookup rest k

/-- `k in d` on a record. -/
def recMem (r : Rec) (k : String) : Bool :=
  (recLookup r k).isSome

/-- `d[k] = v` on a record: replace in place if the key exists (keeping its
position, as a Python dict does), otherwise append. -/
def recInsert (r : Rec) (k : String) (v : Val) : Rec :=
  match r with
  | [] => [(k, v)]
  | (k', v') :: rest =>
      if k' = k then (k, v) :: rest else (k', v') :: recInsert rest k v

/-- The keys of a record, in order. -/
def recKeys (r : Rec) : List String := r.map Prod.fst

/-- A Python `dict` keyed by arbitrary values (entity ids), insertion
ordered. -/
abbrev Dict := List (Val × Rec)

/-- `d.get(k)` for an id-keyed dict. -/
def dlookup (d : Dict) (k : Val) : Option Rec :=
  match d with
  | [] => none
  | (k', v) :: rest => if k' = k then some v else dlookup rest k

/-- `k in d` for an id-keyed dict. -/
def dmem (d : Dict) (k : Val) : Bool :=
  (dlookup d k).isSome

/-- `d[k] = v` for an id-keyed dict (replace in place or append). -/
def dinsert (d : Dict) (k : Val) (v : Rec) : Dict :=
  match d with
  | [] => [(k, v)]
  | (k', v') :: rest =>
      if k' = k then (k, v) :: rest else (k', v') :: dinsert rest k v

/-- `del d[k]` / the effect of a remote delete on the store model. -/
def dremove (d : Dict) (k : Val) : Dict :=
  d.filter (fun kv => kv.1 != k)

/-- The keys of an id-keyed dict, in order. -/
def dkeys (d : Dict) : List Val := d.map Prod.fst

/-- Lexicographic order on character lists by code point (a total order on
strings that the kernel can evaluate; which order is used is immaterial —
it only canonicalizes key order for the dict-equality model). -/
def charListLe : List Char → List Char → Bool
  | [], _ => true
  | _ :: _, [] => false
  | a :: as, b :: bs =>
      if a.val < b.val then true
      else if b.val < a.val then false
      else charListLe as bs

/-- String order used for canonicalization. -/
def strLeB (a b : String) : Bool := charListLe a.toList b.toList

/-- Insertion sort of record entries by key, used only to canonicalize key
order when modelling Python's order-insensitive `dict` equality. -/
def insertPairSorted (p : String × Val) : List (String × Val) → List (String × Val)
  | [] => [p]
  | q :: rest =>
      if strLeB p.1 q.1 then p :: q :: rest else q :: insertPairSorted p rest

/-- Sort record entries by key (for `Val.canon` only). -/
def sortPairs (l : List (String × Val)) : List (String × Val) :=
  l.foldr insertPairSorted []

mutual

/-- Order-canonical form of a value: mapping entries are sorted by key at
every level.  Two Python values compare equal with `==` exactly when their
canonical forms coincide (for the duplicate-free dicts produced by the
program). -/
def Val.canon : Val → Val
  | .str s => .str s
  | .int n => .int n
  | .bool b => .bool b
  | .null => .null
  | .list xs => .list (Val.canonList xs)
  | .map kvs => .map (sortPairs (Val.canonPairs kvs))

/-- `Val.canon` mapped over a list. -/
def Val.canonList : List Val → List Val
  | [] => []
  | v :: vs => v.canon :: Val.canonList vs

/-- `Val.canon` mapped over record entries. -/
def Val.canonPairs : List (String × Val) → List (String × Val)
  | [] => []
  | (k, v) :: kvs => (k, v.canon) :: Val.canonPairs kvs

end

/-- Python `==` on two records (dicts): order-insensitive at every level. -/
def pyEqRec (a b : Rec) : Bool :=
  Val.canon (.map a) == Val.canon (.map b)

theorem pyEqRec_of_eq {a b : Rec} (h : a = b) : pyEqRec a b = true := by
  subst h; simp [pyEqRec]

/-!
## Normalizer (`ha_sync/models.py`)

`BaseEntityModel.normalize(data)` is
`cls.model_validate(data).model_dump(exclude_none=True)` on a Pydantic
model with `extra="allow"`:
* declared fields are validated in declaration order; an absent field takes
  its declared default, an absent field without a default is an error;
* unknown (extra) fields pass through unvalidated, keeping input order;
* the dump lists declared fields first (declaration order), then extras,
  and drops every entry whose value is `None`.

A `FieldSpec` carries the field's name, its value acceptance function
(type validation; Pydantic's lax coercions land in the same target type
and are immaterial to the claims, so acceptance is modelled by type
membership), and its declared default (`none` = required field).
-/

/-- One declared field of a Pydantic model. -/
structure FieldSpec where
  name : String
  validate : Val → Option Val
  default : Option Val

/-- A Pydantic model: its declared fields, in declaration order. -/
structure Schema where
  fields : List FieldSpec

/-- The value a declared field contributes: the validated present value, or
the declared default; `none` is a validation error. -/
def validateField (r : Rec) (f : FieldSpec) : Option Val :=
  match recLookup r f.name with
  | some v => f.validate v
  | none => f.default

/-- Validate all declared fields of the schema, in declaration order. -/
def validateFields (r : Rec) : List FieldSpec → Option Rec
  | [] => some []
  | f :: fs =>
      match validateField r f with
      | none => none
      | some v => (validateFields r fs).map (fun rest => (f.name, v) :: rest)

/-- `BaseEntityModel.normalize`: validate, order declared fields first and
extras after (input order), and drop `None`-valued entries. -/
def Schema.normalize (s : Schema) (r : Rec) : Option Rec :=
  match validateFields r s.fields with
  | none => none
  | some ds =>
      let names := s.fields.map FieldSpec.name
      let extras := r.filter (fun kv => ¬names.contains kv.1)
      some ((ds ++ extras).filter (fun kv => kv.2 ≠ Val.null))

/-- `str`-typed field. -/
def vStr : Val → Option Val
  | .str s => some (.str s)
  | _ => none

/-- `str | None`-typed field. -/
def vOptStr : Val → Option Val
  | .str s => some (.str s)
  | .null => some .null
  | _ => none

/-- `Literal[...]`-typed field. -/
def vLiteral (opts : List String) : Val → Option Val
  | .str s => if opts.contains s then some (.str s) else none
  | _ => none

/-- `list[dict[str, Any]]`-typed field. -/
def vListMap : Val → Option Val
  | .list xs => if xs.all Val.isMap then some (.list xs) else none
  | _ => none

/-- `dict[str, Any]`-typed field. -/
def vMap : Val → Option Val
  | .map kvs => some (.map kvs)
  | _ => none

/-- `bool`-typed field. -/
def vBool : Val → Option Val
  | .bool b => some (.bool b)
  | _ => none

/-- `bool | None`-typed field. -/
def vOptBool : Val → Option Val
  | .bool b => some (.bool b)
  | .null => some .null
  | _ => none

/-- `int`-typed field. -/
def vInt : Val → Option Val
  | .int n => some (.int n)
  | _ => none

/-- `list[str]`-typed field. -/
def vListStr : Val → Option Val
  | .list xs =>
      if xs.all (fun v => match v with | .str _ => true | _ => false) then
        some (.list xs)
      else none
  | _ => none

/-- The `Automation` model of `models.py`. -/
def automationSchema : Schema :=
  ⟨[⟨"id", vStr, none⟩,
    ⟨"alias", vStr, some (.str "")⟩,
    ⟨"description", vStr, some (.str "")⟩,
    ⟨"trigger", vListMap, some (.list [])⟩,
    ⟨"condition", vListMap, some (.list [])⟩,
    ⟨"action", vListMap, some (.list [])⟩,
    ⟨"mode", vLiteral ["single", "restart", "queued", "parallel"],
      some (.str "single")⟩]⟩

/-- The `Script` model of `models.py`. -/
def scriptSchema : Schema :=
  ⟨[⟨"id", vStr, none⟩,
    ⟨"alias", vOptStr, some .null⟩,
    ⟨"description", vOptStr, some .null⟩,
    ⟨"icon", vOptStr, some .null⟩,
    ⟨"mode", vLiteral ["single", "restart", "queued", "parallel"],
      some (.str "single")⟩,
    ⟨"sequence", vListMap, some (.list [])⟩]⟩

/-- The `Scene` model of `models.py`. -/
def sceneSchema : Schema :=
  ⟨[⟨"id", vStr, none⟩,
    ⟨"name", vStr, none⟩,
    ⟨"icon", vOptStr, some .null⟩,
    ⟨"entities", vMap, some (.map [])⟩]⟩

/-- The `InputBoolean` model of `models.py`. -/
def inputBooleanSchema : Schema :=
  ⟨[⟨"id", vStr, none⟩,
    ⟨"name", vStr, none⟩,
    ⟨"icon", vOptStr, some .null⟩,
    ⟨"initial", vOptBool, some .null⟩]⟩

/-- The `InputText` model of `models.py`. -/
def inputTextSchema : Schema :=
  ⟨[⟨"id", vStr, none⟩,
    ⟨"name", vStr, none⟩,
    ⟨"icon", vOptStr, some .null⟩,
    ⟨"min", vInt, some (.int 0)⟩,
    ⟨"max", vInt, some (.int 100)⟩,
    ⟨"initial", vOptStr, some .null⟩,
    ⟨"pattern", vOptStr, some .null⟩,
    ⟨"mode", vLiteral ["text", "password"], some (.str "text")⟩]⟩

/-- The `InputSelect` model of `models.py`. -/
def inputSelectSchema : Schema :=
  ⟨[⟨"id", vStr, none⟩,
    ⟨"name", vStr, none⟩,
    ⟨"icon", vOptStr, some .null⟩,
    ⟨"options", vListStr, some (.list [])⟩,
    ⟨"initial", vOptStr, some .null⟩]⟩

/-- The `InputDatetime` model of `models.py`. -/
def inputDatetimeSchema : Schema :=
  ⟨[⟨"id", vStr, none⟩,
    ⟨"name", vStr, none⟩,
    ⟨"icon", vOptStr, some .null⟩,
    ⟨"has_date", vBool, some (.bool true)⟩,
    ⟨"has_time", vBool, some (.bool true)⟩,
    ⟨"initial", vOptStr, some .null⟩]⟩

/-- The `InputButton` model of `models.py`. -/
def inputButtonSchema : Schema :=
  ⟨[⟨"id", vStr, none⟩,
    ⟨"name", vStr, none⟩,
    ⟨"icon", vOptStr, some .null⟩]⟩

/-- The declared entity schemas the claims quantify over. -/
def haSchemas : List Schema :=
  [automationSchema, scriptSchema, sceneSchema, inputBooleanSchema,
   inputTextSchema, inputSelectSchema, inputDatetimeSchema,
   inputButtonSchema]

/-- `Automation.normalize` (the normalizer the automation syncer uses). -/
def automationNormalize (r : Rec) : Option Rec :=
  automationSchema.normalize r

/-!
## Local store and rename detector (`ha_sync/sync/base.py`)

The entity directory is modelled as `Files`: the list of `*.yaml` files in
glob order, each as `(stem, parsed content)` — for a file `x.yaml` the stem
is `x` and `id_from_filename` returns it; `filename_from_id(i)` is
`f"{i}.yaml"`.  A missing or unparsable file never reaches the loops
(`load_yaml` returns `None` for missing files and the loops guard with
`if data and isinstance(data, dict)`), so only the parsed content matters.
-/

/-- The `*.yaml` files of an entity directory, in glob order:
`(stem, parsed yaml)`. -/
abbrev Files := List (String × Val)

/-- Python `str(v)` as used by f-string filename formatting
(`filename_from_id`); entity ids are strings in practice, container
renderings are never exercised by the claims. -/
def valFmt : Val → String
  | .str s => s
  | .int n => toString n
  | .bool b => if b then "True" else "False"
  | .null => "None"
  | .list _ => "[...]"
  | .map _ => "{...}"

/-- `k.startswith("_")` (first-character test, kernel-evaluable). -/
def startsUnderscore (s : String) : Bool :=
  match s.toList with
  | [] => false
  | c :: _ => c = '_'

/-- `SimpleEntitySyncer.clean_config`: drop keys starting with `_`. -/
def cleanConfig (r : Rec) : Rec :=
  r.filter (fun kv => ¬startsUnderscore kv.1)

/-- `SimpleEntitySyncer.ensure_id_in_config`. -/
def ensureIdInConfig (entityId : Val) (r : Rec) : Rec :=
  if recMem r "id" then r else ("id", entityId) :: r

/-- The local-entities entry contributed by one file: skipped unless the
content is a non-empty mapping; keyed by `data.get("id", stem)`; the
`_filename` bookkeeping key is set to the file's name. -/
def localEntryOf (p : String × Val) : Option (Val × Rec) :=
  match p.2 with
  | .map m =>
      if m.isEmpty then none
      else
        some ((recLookup m "id").getD (.str p.1),
              recInsert m "_filename" (.str (p.1 ++ ".yaml")))
  | _ => none

/-- `SimpleEntitySyncer.get_local_entities`. -/
def getLocalEntities (files : Files) : Dict :=
  (files.filterMap localEntryOf).foldl (fun acc p => dinsert acc p.1 p.2) []

/-- `d[k] = v` on the id-to-id rename dict. -/
def vinsert (d : List (Val × Val)) (k v : Val) : List (Val × Val) :=
  match d with
  | [] => [(k, v)]
  | (k', v') :: rest =>
      if k' = k then (k, v) :: rest else (k', v') :: vinsert rest k v

/-- `SimpleEntitySyncer.detect_renames`: for each file whose content id
differs from its filename id and whose filename id exists remotely, map
filename id to content id. -/
def detectRenames (files : Files) (remote : Dict) : List (Val × Val) :=
  files.foldl
    (fun renames p =>
      match p.2 with
      | .map m =>
          if m.isEmpty then renames
          else
            let fid := Val.str p.1
            let cid := (recLookup m "id").getD fid
            if cid ≠ fid ∧ dmem remote fid then vinsert renames fid cid
            else renames
      | _ => renames)
    []

/-!
## Reconciliation engine: `diff` (`SimpleEntitySyncer.diff`)

`diff` is parameterized by the kind's normalizer `norm` (the adapter's
`self.normalize`, i.e. `model_class.normalize`); a `None` result models a
Pydantic `ValidationError`, which `diff` does not catch, so the whole call
is modelled in `Except`.
-/

/-- One difference between local and remote (`DiffItem`). -/
structure DiffItem where
  entityId : Val
  status : String
  localSnap : Option Rec
  remoteSnap : Option Rec
  newId : Option Val
  deriving DecidableEq, Repr

/-- The additions/modifications loop of `diff`: iterate over the local
entities, skipping rename targets; a local entity absent remotely is
`added` (with its cleaned config), one present remotely is `modified` iff
the normalized forms differ under Python dict equality. -/
def diffLocals (norm : Rec → Option Rec) (remote : Dict) (renTargets : List Val) :
    Dict → Except String (List DiffItem)
  | [] => .ok []
  | (eid, lcfg) :: rest =>
      if renTargets.contains eid then diffLocals norm remote renTargets rest
      else
        let lclean := cleanConfig lcfg
        match dlookup remote eid with
        | none =>
            (diffLocals norm remote renTargets rest).map
              (fun items => ⟨eid, "added", some lclean, none, none⟩ :: items)
        | some rcfg =>
            let rfull := ensureIdInConfig eid rcfg
            match norm lclean, norm rfull with
            | some ln, some rn =>
                (diffLocals norm remote renTargets rest).map
                  (fun items =>
                    if pyEqRec ln rn then items
                    else ⟨eid, "modified", some ln, some rn, none⟩ :: items)
            | _, _ => .error "validation error"

/-- The deletions loop of `diff`: remote entities with no local counterpart
and not a rename source. -/
def diffDeletions (localE : Dict) (renSources : List Val) (remote : Dict) :
    List DiffItem :=
  remote.filterMap
    (fun p =>
      if ¬dmem localE p.1 ∧ ¬renSources.contains p.1 then
        some ⟨p.1, "deleted", none, some p.2, none⟩
      else none)

/-- `SimpleEntitySyncer.diff`: rename items first, then additions and
modifications, then deletions. -/
def diffSimple (norm : Rec → Option Rec) (files : Files) (remote : Dict) :
    Except String (List DiffItem) :=
  let localE := getLocalEntities files
  let renames := detectRenames files remote
  let renItems := renames.map
    (fun p => DiffItem.mk p.1 "renamed" (dlookup localE p.2) (dlookup remote p.1) (some p.2))
  match diffLocals norm remote (renames.map Prod.snd) localE with
  | .error e => .error e
  | .ok addMods =>
      .ok (renItems ++ addMods ++ diffDeletions localE (renames.map Prod.fst) remote)

/-!
## Reconciliation engine: `push` (`SimpleEntitySyncer.push`)

The run is modelled against explicit store states: the local files and the
remote store evolve as the phases apply their operations.  Remote calls can
fail; an `Oracle` decides, per entity id, whether `save_remote` /
`delete_remote` raises (the exception is caught per entity and recorded).
Every attempted remote call and local file mutation is appended to an event
trace, in program order.
-/

/-- `SyncResult`. -/
structure SyncResult where
  created : List Val
  updated : List Val
  deleted : List Val
  renamed : List (Val × Val)
  errors : List (Val × String)
  deriving DecidableEq, Repr

/-- The empty result a sync operation starts from. -/
def SyncResult.empty : SyncResult := ⟨[], [], [], [], []⟩

/-- `SyncResult.has_changes`. -/
def SyncResult.hasChanges (r : SyncResult) : Bool :=
  ¬r.created.isEmpty ∨ ¬r.updated.isEmpty ∨ ¬r.deleted.isEmpty ∨
    ¬r.renamed.isEmpty

/-- `SyncResult.has_errors`. -/
def SyncResult.hasErrors (r : SyncResult) : Bool :=
  ¬r.errors.isEmpty

/-- An externally visible operation of a push run. -/
inductive Ev where
  | saveRemote (id : Val) (payload : Rec)
  | deleteRemote (id : Val)
  | renameLocal (oldStem newStem : String)
  | reloadRemote
  deriving DecidableEq, Repr

/-- Success/failure of the remote store's calls, per entity id. -/
structure Oracle where
  saveOk : Val → Bool
  deleteOk : Val → Bool

/-- The oracle of a run in which every remote call succeeds. -/
def Oracle.allOk : Oracle := ⟨fun _ => true, fun _ => true⟩

/-- The evolving state of a push run. -/
structure PushState where
  files : Files
  remote : Dict
  res : SyncResult
  trace : List Ev
  deriving Repr, DecidableEq

/-- `old_file.rename(new_file)`: move the content, replacing any existing
file at the destination. -/
def renameFile (files : Files) (oldStem newStem : String) : Files :=
  match recLookup files oldStem with
  | some content =>
      recInsert (files.filter (fun p => p.1 ≠ oldStem)) newStem content
  | none => files

/-- Truthiness of `item.new_id` (`not item.new_id` skips `None` and falsy
ids). -/
def newIdTruthy : Option Val → Bool
  | some v => v.truthy
  | none => false

/-- `processed_ids`: both ids of every rename item, collected before any
per-item work. -/
def processedIds (items : List DiffItem) : List Val :=
  items.foldl
    (fun acc it =>
      match it.newId with
      | some nid =>
          if it.status = "renamed" ∧ nid.truthy then acc ++ [it.entityId, nid]
          else acc
      | none => acc)
    []

/-- The rename phase of `push`: delete the old remote entity, create it
under the new id, rename the local file; failures are recorded per entity.
In a dry run the pair is only recorded. -/
def renamePhase (O : Oracle) (dry : Bool) :
    List DiffItem → PushState → PushState
  | [], st => st
  | it :: rest, st =>
      match it.newId with
      | none => renamePhase O dry rest st
      | some nid =>
          if it.status = "renamed" ∧ nid.truthy then
            let old := it.entityId
            if dry then
              renamePhase O dry rest
                { st with res := { st.res with renamed := st.res.renamed ++ [(old, nid)] } }
            else
              let oldStem := valFmt old
              let newStem := valFmt nid
              match recLookup st.files oldStem with
              | some (.map m) =>
                  if m.isEmpty then renamePhase O dry rest st
                  else
                    let pushCfg := cleanConfig m
                    let st := { st with trace := st.trace ++ [Ev.deleteRemote old] }
                    if O.deleteOk old then
                      let st := { st with
                        remote := dremove st.remote old,
                        trace := st.trace ++ [Ev.saveRemote nid pushCfg] }
                      if O.saveOk nid then
                        renamePhase O dry rest
                          { st with
                            remote := dinsert st.remote nid pushCfg,
                            files := renameFile st.files oldStem newStem,
                            trace := st.trace ++ [Ev.renameLocal oldStem newStem],
                            res := { st.res with renamed := st.res.renamed ++ [(old, nid)] } }
                      else
                        renamePhase O dry rest
                          { st with res := { st.res with
                              errors := st.res.errors ++ [(old, "save_remote failed")] } }
                    else
                      renamePhase O dry rest
                        { st with res := { st.res with
                            errors := st.res.errors ++ [(old, "delete_remote failed")] } }
              | some v =>
                  -- a truthy non-mapping raises in clean_config; caught per entity
                  if v.truthy then
                    renamePhase O dry rest
                      { st with res := { st.res with
                          errors := st.res.errors ++ [(old, "clean_config failed")] } }
                  else renamePhase O dry rest st
              | none => renamePhase O dry rest st
          else renamePhase O dry rest st

/-- The create/update work list: all unprocessed local entities under
`--force`, otherwise the local entities of `added`/`modified` diff items. -/
def cuItems (force : Bool) (localE : Dict) (processed : List Val)
    (items : List DiffItem) : Dict :=
  if force then localE.filter (fun p => ¬processed.contains p.1)
  else
    items.filterMap
      (fun it =>
        if it.status = "added" ∨ it.status = "modified" then
          (dlookup localE it.entityId).map (fun c => (it.entityId, c))
        else none)

/-- Append an entity to `updated` or `created`. -/
def recordCU (res : SyncResult) (isUpdate : Bool) (eid : Val) : SyncResult :=
  if isUpdate then { res with updated := res.updated ++ [eid] }
  else { res with created := res.created ++ [eid] }

/-- The create/update phase of `push`: save each work-list entity remotely
(classified against the remote snapshot `remote0`); failures are recorded
per entity; a dry run only classifies. -/
def cuPhase (O : Oracle) (dry : Bool) (remote0 : Dict) :
    Dict → PushState → PushState
  | [], st => st
  | (eid, cfg) :: rest, st =>
      let pushCfg := cleanConfig cfg
      let isUpdate := dmem remote0 eid
      if dry then
        cuPhase O dry remote0 rest { st with res := recordCU st.res isUpdate eid }
      else
        let st := { st with trace := st.trace ++ [Ev.saveRemote eid pushCfg] }
        if O.saveOk eid then
          cuPhase O dry remote0 rest
            { st with
              remote := dinsert st.remote eid pushCfg,
              res := recordCU st.res isUpdate eid }
        else
          cuPhase O dry remote0 rest
            { st with res := { st.res with
                errors := st.res.errors ++ [(eid, "save_remote failed")] } }

/-- The deletion work list: under `--force` every unprocessed remote-only
entity, otherwise the `deleted` diff items. -/
def delItems (force : Bool) (localE : Dict) (remote0 : Dict)
    (processed : List Val) (items : List DiffItem) : List Val :=
  if force then
    (dkeys remote0).filter (fun eid => ¬dmem localE eid ∧ ¬processed.contains eid)
  else
    items.filterMap (fun it => if it.status = "deleted" then some it.entityId else none)

/-- The deletion phase of `push` (only run with `--sync-deletions`). -/
def delPhase (O : Oracle) (dry : Bool) : List Val → PushState → PushState
  | [], st => st
  | eid :: rest, st =>
      if dry then
        delPhase O dry rest
          { st with res := { st.res with deleted := st.res.deleted ++ [eid] } }
      else
        let st := { st with trace := st.trace ++ [Ev.deleteRemote eid] }
        if O.deleteOk eid then
          delPhase O dry rest
            { st with
              remote := dremove st.remote eid,
              res := { st.res with deleted := st.res.deleted ++ [eid] } }
        else
          delPhase O dry rest
            { st with res := { st.res with
                errors := st.res.errors ++ [(eid, "delete_remote failed")] } }

/-- The reload step: invoked once, after everything else, iff the run was
not dry and the result records a change (a reload failure only prints). -/
def reloadPhase (dry : Bool) (st : PushState) : PushState :=
  if ¬dry ∧ st.res.hasChanges then
    { st with trace := st.trace ++ [Ev.reloadRemote] }
  else st

/-- Flags of a push run. -/
structure PushFlags where
  force : Bool
  syncDeletions : Bool
  dryRun : Bool

/-- The body of `SimpleEntitySyncer.push` after the diff: renames, then
creates/updates, then deletions, then the reload hook. -/
def pushCore (O : Oracle) (flags : PushFlags) (items : List DiffItem)
    (localE : Dict) (files : Files) (remote0 : Dict) : PushState :=
  let processed := processedIds items
  let st := renamePhase O flags.dryRun items ⟨files, remote0, SyncResult.empty, []⟩
  let st := cuPhase O flags.dryRun remote0
    (cuItems flags.force localE processed items) st
  let st :=
    if flags.syncDeletions then
      delPhase O flags.dryRun (delItems flags.force localE remote0 processed items) st
    else st
  reloadPhase flags.dryRun st

/-- `SimpleEntitySyncer.push`: compute the diff (whose uncaught validation
errors abort the run), then apply the phases. -/
def pushSimple (norm : Rec → Option Rec) (files : Files) (remote0 : Dict)
    (flags : PushFlags) (O : Oracle) : Except String PushState :=
  match diffSimple norm files remote0 with
  | .error e => .error e
  | .ok items => .ok (pushCore O flags items (getLocalEntities files) files remote0)

/-!
## Reconciliation engine: `pull`

`SimpleEntitySyncer.pull` (`base.py`) has **no** per-entity exception
handling: a failing `dump_yaml` (or a validation error) propagates and
aborts the whole call, which the embedding models in `Except`.  The
success/failure of the local write for an entity is the oracle `W`.
`ConfigEntrySyncer.pull` (`config_entries.py`) wraps each entity in
`try/except` and is therefore total, collecting `(key, message)` errors.
-/

/-- The stem of a generated `*.yaml` filename (every filename the code
builds ends in `.yaml`, so this is the inverse of appending it; it also
models `filename.rsplit(".yaml", 1)[0]` for such names). -/
def stemOfYaml (f : String) : String :=
  String.mk (f.toList.take (f.toList.length - 5))

/-- The remote loop of `SimpleEntitySyncer.pull`: write every remote
entity that is absent locally (`created`) or differs from the local copy
(`updated`); nothing is caught, failures abort. -/
def pullSimpleLoop (norm : Rec → Option Rec) (localE : Dict) (W : Val → Bool) :
    Dict → Files → SyncResult → Except String (SyncResult × Files)
  | [], files, res => .ok (res, files)
  | (eid, cfg) :: rest, files, res =>
      let cfg := ensureIdInConfig eid cfg
      match norm cfg with
      | none => .error "validation error"
      | some ordered =>
          let stem := valFmt eid
          match dlookup localE eid with
          | some ldata =>
              match norm (cleanConfig ldata) with
              | none => .error "validation error"
              | some lnorm =>
                  if pyEqRec ordered lnorm then
                    pullSimpleLoop norm localE W rest files res
                  else if W eid then
                    pullSimpleLoop norm localE W rest
                      (recInsert files stem (.map ordered))
                      { res with updated := res.updated ++ [eid] }
                  else .error "dump_yaml failed"
          | none =>
              if W eid then
                pullSimpleLoop norm localE W rest
                  (recInsert files stem (.map ordered))
                  { res with created := res.created ++ [eid] }
              else .error "dump_yaml failed"

/-- The `--sync-deletions` loop of `SimpleEntitySyncer.pull`: unlink every
local entity with no remote counterpart. -/
def pullSimpleDeletions (remote0 : Dict) :
    Dict → Files → SyncResult → SyncResult × Files
  | [], files, res => (res, files)
  | (eid, ldata) :: rest, files, res =>
      if dmem remote0 eid then pullSimpleDeletions remote0 rest files res
      else
        let filename :=
          match recLookup ldata "_filename" with
          | some v => valFmt v
          | none => valFmt eid ++ ".yaml"
        let stem := stemOfYaml filename
        if recMem files stem then
          pullSimpleDeletions remote0 rest
            (files.filter (fun p => p.1 ≠ stem))
            { res with deleted := res.deleted ++ [eid] }
        else pullSimpleDeletions remote0 rest files res

/-- `SimpleEntitySyncer.pull`. -/
def pullSimple (norm : Rec → Option Rec) (files0 : Files) (remote0 : Dict)
    (syncDeletions : Bool) (W : Val → Bool) :
    Except String (SyncResult × Files) :=
  let localE := getLocalEntities files0
  match pullSimpleLoop norm localE W remote0 files0 SyncResult.empty with
  | .error e => .error e
  | .ok (res, files) =>
      if syncDeletions then .ok (pullSimpleDeletions remote0 localE files res)
      else .ok (res, files)

/-!
### `ConfigEntrySyncer` (`config_entries.py`)
-/

/-- Is the (lower-cased) character kept by `slugify`'s `[^a-z0-9]`? -/
def isSlugChar (c : Char) : Bool :=
  ('a' ≤ c ∧ c ≤ 'z') ∨ ('0' ≤ c ∧ c ≤ '9')

/-- Collapse runs of `_` to a single `_` (the effect of
`re.sub(r"[^a-z0-9]+", "_", …)` after per-character replacement). -/
def collapseUnderscores : List Char → List Char
  | [] => []
  | '_' :: '_' :: rest => collapseUnderscores ('_' :: rest)
  | c :: rest => c :: collapseUnderscores rest

/-- `str.strip("_")`. -/
def stripUnderscores (l : List Char) : List Char :=
  ((l.dropWhile (· = '_')).reverse.dropWhile (· = '_')).reverse

/-- `utils.slugify`: lowercase, replace runs of other characters with `_`,
strip leading/trailing `_` (ASCII lowering, like `str.lower` on the ASCII
names the program handles). -/
def slugify (s : String) : String :=
  let repl := (s.toList.map Char.toLower).map
    (fun c => if isSlugChar c then c else '_')
  String.mk (stripUnderscores (collapseUnderscores repl))

/-- `utils.filename_from_name`. -/
def filenameFromName (name : Val) (fallbackId : Val) : String :=
  let fallback :=
    if fallbackId.truthy then valFmt fallbackId ++ ".yaml" else "unnamed.yaml"
  if name.truthy then
    let slug := slugify (valFmt name)
    if slug ≠ "" then slug ++ ".yaml" else fallback
  else fallback

/-- `ConfigEntrySyncer._get_filename`: collision against the used set is
resolved by suffixing the entry id. -/
def getFilenameCE (name : Val) (entryId : Val) (used : List String) : String :=
  let f := filenameFromName name entryId
  if used.contains f then stemOfYaml f ++ "-" ++ valFmt entryId ++ ".yaml"
  else f

/-- `ConfigEntrySyncer._normalize`: normalize through the domain's model if
there is one, falling back (also on a validation error, which is swallowed)
to dropping `None`-valued entries. -/
def cnorm (sch : Option Schema) (r : Rec) : Rec :=
  match sch with
  | some s =>
      match s.normalize r with
      | some out => out
      | none => r.filter (fun kv => kv.2 ≠ Val.null)
  | none => r.filter (fun kv => kv.2 ≠ Val.null)

/-- `ConfigEntrySyncer.get_local_entities`: keyed by a truthy `entry_id`
content field; records the `_filename`. -/
def getLocalEntitiesCE (files : Files) : Dict :=
  (files.filterMap
      (fun p =>
        match p.2 with
        | .map m =>
            if m.isEmpty then none
            else
              match recLookup m "entry_id" with
              | some v =>
                  if v.truthy then
                    some (v, recInsert m "_filename" (.str (p.1 ++ ".yaml")))
                  else none
              | none => none
        | _ => none)).foldl
    (fun acc p => dinsert acc p.1 p.2) []

/-- State threaded through the `ConfigEntrySyncer.pull` loop. -/
structure CEPullState where
  used : List String
  files : Files
  res : SyncResult
  deriving Repr

/-- The remote loop of `ConfigEntrySyncer.pull`.  Each entity's body runs
under `try/except`; `W eid = false` means the `dump_yaml` for that entity
raises, which is recorded as a `(key, message)` error, and the loop
continues. -/
def pullCELoop (sch : Option Schema) (localE : Dict) (W : Val → Bool) :
    Dict → CEPullState → CEPullState
  | [], st => st
  | (eid, data) :: rest, st =>
      let nameVal := (recLookup data "name").getD eid
      let cfg := if recMem data "entry_id" then data else ("entry_id", eid) :: data
      let ordered := cnorm sch cfg
      match dlookup localE eid with
      | some ldata =>
          let currentFilename := recLookup ldata "_filename"
          let expected := getFilenameCE nameVal eid st.used
          let st := { st with used := st.used ++ [expected] }
          let lnorm := cnorm sch (ldata.filter (fun kv => kv.1 ≠ "_filename"))
          let renameNeeded :=
            match currentFilename with
            | some cf => cf.truthy && (cf != Val.str expected)
            | none => false
          if renameNeeded then
            let oldStem := stemOfYaml (valFmt (currentFilename.getD Val.null))
            if recMem st.files oldStem then
              if W eid then
                pullCELoop sch localE W rest
                  { st with
                    files := (recInsert st.files (stemOfYaml expected) (.map ordered)).filter
                      (fun p => p.1 ≠ oldStem),
                    res := { st.res with renamed := st.res.renamed ++ [(eid, eid)] } }
              else
                pullCELoop sch localE W rest
                  { st with res := { st.res with
                      errors := st.res.errors ++ [(eid, "dump_yaml failed")] } }
            else pullCELoop sch localE W rest st
          else if ¬pyEqRec ordered lnorm then
            let fpath :=
              match currentFilename with
              | some cf => if cf.truthy then valFmt cf else expected
              | none => expected
            if W eid then
              pullCELoop sch localE W rest
                { st with
                  files := recInsert st.files (stemOfYaml fpath) (.map ordered),
                  res := { st.res with updated := st.res.updated ++ [eid] } }
            else
              pullCELoop sch localE W rest
                { st with res := { st.res with
                    errors := st.res.errors ++ [(eid, "dump_yaml failed")] } }
          else pullCELoop sch localE W rest st
      | none =>
          let filename := getFilenameCE nameVal eid st.used
          let st := { st with used := st.used ++ [filename] }
          if W eid then
            pullCELoop sch localE W rest
              { st with
                files := recInsert st.files (stemOfYaml filename) (.map ordered),
                res := { st.res with created := st.res.created ++ [eid] } }
          else
            pullCELoop sch localE W rest
              { st with res := { st.res with
                  errors := st.res.errors ++ [(eid, "dump_yaml failed")] } }

/-- The `--sync-deletions` loop of `ConfigEntrySyncer.pull`. -/
def pullCEDeletions (remote0 : Dict) :
    Dict → Files → SyncResult → SyncResult × Files
  | [], files, res => (res, files)
  | (eid, ldata) :: rest, files, res =>
      if dmem remote0 eid then pullCEDeletions remote0 rest files res
      else
        match recLookup ldata "_filename" with
        | some f =>
            if f.truthy then
              let stem := stemOfYaml (valFmt f)
              if recMem files stem then
                pullCEDeletions remote0 rest
                  (files.filter (fun p => p.1 ≠ stem))
                  { res with deleted := res.deleted ++ [eid] }
              else pullCEDeletions remote0 rest files res
            else pullCEDeletions remote0 rest files res
        | none => pullCEDeletions remote0 rest files res

/-- `ConfigEntrySyncer.pull` (total: per-entity exceptions are caught). -/
def pullConfigEntry (sch : Option Schema) (remote0 : Dict) (files0 : Files)
    (syncDeletions : Bool) (W : Val → Bool) : SyncResult × Files :=
  let localE := getLocalEntitiesCE files0
  let st := pullCELoop sch localE W remote0 ⟨[], files0, SyncResult.empty⟩
  if syncDeletions then pullCEDeletions remote0 localE st.files st.res
  else (st.res, st.files)

/-!
## CLI outcome (`ha_sync/cli.py`)

The `pull`, `push` and `diff` subcommands check `HA_URL`/`HA_TOKEN`
(`typer.Exit(1)` when missing), resolve the path argument to syncers
(`resolve_path_to_syncers` raises `typer.Exit(1)` for an unknown top-level
directory, `cli.py:168`), then run the syncers in a loop with no exception
handler: a raising call escapes `asyncio.run` and CPython exits 1.  When
every call returns, `_pull`/`_push` only print a per-kind summary line and
fall off the end (exit 0, whatever per-entity errors the results record);
`_diff` additionally reads `item.file_path` (`cli.py:743,761`) — a field
`base.py`'s `DiffItem` does not have — so any collected diff item raises
`AttributeError` and exits 1.
-/

/-- The configuration the commands check before running. -/
structure CliConfig where
  url : String
  token : String

/-- `if not config.url or not config.token: raise typer.Exit(1)`. -/
def cliConfigured (c : CliConfig) : Bool :=
  c.url ≠ "" ∧ c.token ≠ ""

/-- The syncer classes `resolve_path_to_syncers` selects between. -/
inductive SyncerClass where
  | dashboard
  | automation
  | script
  | scene
  | helper
  | template
  | group
  | configEntry
  deriving DecidableEq, Repr

/-- `cli.SyncerSpec`: a syncer class, an optional file filter (the whole
path when it names more than the dispatching directory), and — for
config-entry syncers — the helper domain. -/
structure SyncerSpec where
  syncerClass : SyncerClass
  fileFilter : Option (List String)
  domain : Option String
  deriving DecidableEq, Repr

/-- `cli.WEBSOCKET_HELPER_TYPES`. -/
def websocketHelperTypes : List String :=
  ["input_boolean", "input_number", "input_select", "input_text",
   "input_datetime", "input_button", "timer", "schedule", "counter"]

/-- `config_entries.CONFIG_ENTRY_HELPER_DOMAINS`. -/
def configEntryHelperDomains : List String :=
  ["integration", "utility_meter", "threshold", "tod", "derivative",
   "min_max", "filter", "switch_as_x", "generic_thermostat",
   "generic_hygrostat", "bayesian", "trend", "random", "statistics",
   "mold_indicator"]

/-- Insert into a `≤`-sorted list of strings. -/
def insertStrSorted (s : String) : List String → List String
  | [] => [s]
  | t :: rest =>
      if strLeB s t then s :: t :: rest else t :: insertStrSorted s rest

/-- Python `sorted` on a set of strings: its elements in ascending
order. -/
def sortStrs (l : List String) : List String := l.foldr insertStrSorted []

/-- The config-entry specs appended for `sorted(domains)` (the discovered
domains, falling back to `CONFIG_ENTRY_HELPER_DOMAINS`). -/
def configEntrySpecs (discovered : Option (List String)) : List SyncerSpec :=
  (sortStrs (discovered.getD configEntryHelperDomains)).map
    (fun d => ⟨.configEntry, none, some d⟩)

/-- The full syncer list used when no path is given. -/
def allSyncerSpecs (discovered : Option (List String)) : List SyncerSpec :=
  [⟨.dashboard, none, none⟩, ⟨.automation, none, none⟩,
   ⟨.script, none, none⟩, ⟨.scene, none, none⟩, ⟨.helper, none, none⟩,
   ⟨.template, none, none⟩, ⟨.group, none, none⟩] ++
    configEntrySpecs discovered

/-- `cli.resolve_path_to_syncers`, as a function of the parsed
`Path(path.rstrip("/")).parts` (pathlib's parsing is outside the
repository): the syncer specs, or the `typer.Exit(1)` raised for an
unknown top-level directory (`cli.py:168`). -/
def resolvePathToSyncers (parts : Option (List String))
    (discovered : Option (List String)) : Except Nat (List SyncerSpec) :=
  match parts with
  | none => .ok (allSyncerSpecs discovered)
  | some [] => .ok (allSyncerSpecs discovered)
  | some (topLevel :: rest) =>
      let fileFilter : Option (List String) :=
        if rest.isEmpty then none else some (topLevel :: rest)
      if topLevel = "dashboards" then .ok [⟨.dashboard, fileFilter, none⟩]
      else if topLevel = "automations" then
        .ok [⟨.automation, fileFilter, none⟩]
      else if topLevel = "scripts" then .ok [⟨.script, fileFilter, none⟩]
      else if topLevel = "scenes" then .ok [⟨.scene, fileFilter, none⟩]
      else if topLevel = "helpers" then
        match rest with
        | [] =>
            .ok ([⟨.helper, none, none⟩, ⟨.template, none, none⟩,
              ⟨.group, none, none⟩] ++ configEntrySpecs discovered)
        | helperType :: rest2 =>
            let fileFilter2 : Option (List String) :=
              if rest2.isEmpty then none else some (topLevel :: rest)
            if websocketHelperTypes.contains helperType then
              .ok [⟨.helper, fileFilter2, none⟩]
            else if helperType = "template" then
              .ok [⟨.template, fileFilter2, none⟩]
            else if helperType = "group" then
              .ok [⟨.group, fileFilter2, none⟩]
            else .ok [⟨.configEntry, fileFilter2, some helperType⟩]
      else .error 1

/-- Did the call raise? (`Except.error` stands for an uncaught Python
exception.) -/
def exceptRaised {ε α : Type} : Except ε α → Bool
  | .error _ => true
  | .ok _ => false

/-- Process exit code of the `pull` subcommand (`cli.pull` / `_pull`):
`typer.Exit(1)` for missing `HA_URL`/`HA_TOKEN`; the `typer.Exit` code
when the path argument does not resolve; exit 1 when a syncer call raises
(the loop has no handler, so the exception escapes `asyncio.run`);
otherwise the loop only prints summary lines and the command returns —
exit 0, whatever per-entity errors the returned results record.  `runs`
lists each syncer call's outcome in program order. -/
def pullCmdExit (c : CliConfig) (parts : Option (List String))
    (discovered : Option (List String))
    (runs : List (Except String SyncResult)) : Nat :=
  if ¬cliConfigured c then 1
  else
    match resolvePathToSyncers parts discovered with
    | .error code => code
    | .ok _ => if runs.any exceptRaised then 1 else 0

/-- Process exit code of the `push` subcommand (`cli.push` / `_push`):
the same structure as `pull`. -/
def pushCmdExit (c : CliConfig) (parts : Option (List String))
    (discovered : Option (List String))
    (runs : List (Except String SyncResult)) : Nat :=
  if ¬cliConfigured c then 1
  else
    match resolvePathToSyncers parts discovered with
    | .error code => code
    | .ok _ => if runs.any exceptRaised then 1 else 0

/-- Process exit code of the `diff` subcommand (`cli.diff` / `_diff`):
after the configuration and path checks, a raising `syncer.diff()`
escapes (exit 1); when every call returns, any collected item makes
`_diff` read `item.file_path` (`cli.py:743,761`) — a field `base.py`'s
`DiffItem` does not have — raising `AttributeError`, so the command exits
0 exactly when every syncer returned an empty diff. -/
def diffCmdExit (c : CliConfig) (parts : Option (List String))
    (discovered : Option (List String))
    (runs : List (Except String (List DiffItem))) : Nat :=
  if ¬cliConfigured c then 1
  else
    match resolvePathToSyncers parts discovered with
    | .error code => code
    | .ok _ =>
        if runs.any (fun r =>
            match r with
            | .error _ => true
            | .ok items => ¬items.isEmpty) then 1
        else 0

/-- The summary line `_pull` prints for one syncer's result. -/
def pullSummaryLine (r : SyncResult) (dryRun : Bool) : String :=
  if ¬r.hasChanges then "No changes"
  else if r.hasErrors then
    "Completed with " ++ toString r.errors.length ++ " errors"
  else
    let total := r.created.length + r.updated.length + r.deleted.length
    if dryRun then "Would sync " ++ toString total ++ " entities"
    else "Synced " ++ toString total ++ " entities"

/-- The summary line `_push` prints for one syncer's result. -/
def pushSummaryLine (r : SyncResult) : String :=
  if ¬r.hasChanges then "No changes"
  else if r.hasErrors then
    "Completed with " ++ toString r.errors.length ++ " errors"
  else
    let total := r.created.length + r.updated.length + r.deleted.length +
      r.renamed.length
    "Synced " ++ toString total ++ " entities"

/-!
## Basic lemmas about the dict model
-/

theorem recLookup_append (a b : Rec) (k : String) :
    recLookup (a ++ b) k =
      match recLookup a k with
      | some v => some v
      | none => recLookup b k := by
  induction a with
  | nil => simp [recLookup]
  | cons p rest ih =>
      obtain ⟨k', v⟩ := p
      by_cases h : k' = k <;> simp [recLookup, h, ih]

theorem recLookup_eq_none_iff (r : Rec) (k : String) :
    recLookup r k = none ↔ k ∉ recKeys r := by
  induction r with
  | nil => simp [recLookup, recKeys]
  | cons p rest ih =>
      obtain ⟨k', v⟩ := p
      by_cases h : k' = k
      · subst h; simp [recLookup, recKeys]
      · simp [recLookup, recKeys, h, Ne.symm h, ih]

theorem recLookup_of_mem_nodup {r : Rec} {k : String} {v : Val}
    (hmem : (k, v) ∈ r) (hnd : (recKeys r).Nodup) : recLookup r k = some v := by
  induction r with
  | nil => simp at hmem
  | cons p rest ih =>
      obtain ⟨k', v'⟩ := p
      simp only [recKeys, List.map_cons, List.nodup_cons] at hnd
      rcases List.mem_cons.mp hmem with h | h
      · obtain ⟨h1, h2⟩ := Prod.mk.injEq .. ▸ h
        cases h; simp [recLookup]
      · have hk : k' ≠ k := by
          intro he; subst he
          exact hnd.1 (List.mem_map.mpr ⟨(k', v), h, rfl⟩)
        simp [recLookup, hk, ih h hnd.2]

theorem mem_of_recLookup_some {r : Rec} {k : String} {v : Val}
    (h : recLookup r k = some v) : (k, v) ∈ r := by
  induction r with
  | nil => simp [recLookup] at h
  | cons p rest ih =>
      obtain ⟨k', v'⟩ := p
      by_cases hk : k' = k
      · subst hk; simp [recLookup] at h; simp [h]
      · simp [recLookup, hk] at h
        exact List.mem_cons_of_mem _ (ih h)

theorem dlookup_of_mem_nodup {d : Dict} {k : Val} {v : Rec}
    (hmem : (k, v) ∈ d) (hnd : (dkeys d).Nodup) : dlookup d k = some v := by
  induction d with
  | nil => simp at hmem
  | cons p rest ih =>
      obtain ⟨k', v'⟩ := p
      simp only [dkeys, List.map_cons, List.nodup_cons] at hnd
      rcases List.mem_cons.mp hmem with h | h
      · cases h; simp [dlookup]
      · have hk : k' ≠ k := by
          intro he; subst he
          exact hnd.1 (List.mem_map.mpr ⟨(k', v), h, rfl⟩)
        simp [dlookup, hk, ih h hnd.2]

theorem mem_of_dlookup_some {d : Dict} {k : Val} {v : Rec}
    (h : dlookup d k = some v) : (k, v) ∈ d := by
  induction d with
  | nil => simp [dlookup] at h
  | cons p rest ih =>
      obtain ⟨k', v'⟩ := p
      by_cases hk : k' = k
      · subst hk; simp [dlookup] at h; simp [h]
      · simp [dlookup, hk] at h
        exact List.mem_cons_of_mem _ (ih h)

theorem dlookup_eq_none_iff (d : Dict) (k : Val) :
    dlookup d k = none ↔ k ∉ dkeys d := by
  induction d with
  | nil => simp [dlookup, dkeys]
  | cons p rest ih =>
      obtain ⟨k', v⟩ := p
      by_cases h : k' = k
      · subst h; simp [dlookup, dkeys]
      · simp [dlookup, dkeys, h, Ne.symm h, ih]

theorem dmem_iff_mem_dkeys (d : Dict) (k : Val) :
    dmem d k = true ↔ k ∈ dkeys d := by
  rw [dmem, Option.isSome_iff_ne_none]
  rw [ne_eq, dlookup_eq_none_iff]
  simp

theorem dkeys_dinsert (d : Dict) (k : Val) (v : Rec) :
    dkeys (dinsert d k v) = if k ∈ dkeys d then dkeys d else dkeys d ++ [k] := by
  induction d with
  | nil => simp [dinsert, dkeys]
  | cons p rest ih =>
      obtain ⟨k', v'⟩ := p
      by_cases h : k' = k
      · subst h; simp [dinsert, dkeys]
      · have h2 : ¬k = k' := fun he => h he.symm
        simp only [dinsert, if_neg h, dkeys, List.map_cons] at ih ⊢
        rw [ih]
        by_cases hmem : k ∈ List.map Prod.fst rest <;> simp [hmem, h2]

theorem dkeys_dinsert_nodup {d : Dict} (hnd : (dkeys d).Nodup) (k : Val) (v : Rec) :
    (dkeys (dinsert d k v)).Nodup := by
  rw [dkeys_dinsert]
  by_cases h : k ∈ dkeys d
  · simpa [h]
  · simp [h, List.nodup_append, hnd]

theorem mem_dkeys_dinsert (d : Dict) (k k' : Val) (v : Rec) :
    k' ∈ dkeys (dinsert d k v) ↔ k' ∈ dkeys d ∨ k' = k := by
  rw [dkeys_dinsert]
  by_cases h : k ∈ dkeys d
  · simp only [if_pos h]
    constructor
    · exact Or.inl
    · rintro (hm | rfl)
      · exact hm
      · exact h
  · simp [if_neg h]

/-- Keys after the `get_local_entities` fold: the accumulator's keys plus
the inserted keys. -/
theorem dkeys_foldl_dinsert (l : List (Val × Rec)) (acc : Dict) (k : Val) :
    k ∈ dkeys (l.foldl (fun acc p => dinsert acc p.1 p.2) acc) ↔
      k ∈ dkeys acc ∨ k ∈ l.map Prod.fst := by
  induction l generalizing acc with
  | nil => simp
  | cons p rest ih =>
      simp only [List.foldl_cons, ih, mem_dkeys_dinsert, List.map_cons,
        List.mem_cons]
      tauto

theorem dkeys_foldl_dinsert_nodup (l : List (Val × Rec)) (acc : Dict)
    (hnd : (dkeys acc).Nodup) :
    (dkeys (l.foldl (fun acc p => dinsert acc p.1 p.2) acc)).Nodup := by
  induction l generalizing acc with
  | nil => simpa
  | cons p rest ih => exact ih _ (dkeys_dinsert_nodup hnd _ _)

/-- The keys of `get_local_entities` are duplicate-free. -/
theorem getLocalEntities_nodup (files : Files) :
    (dkeys (getLocalEntities files)).Nodup :=
  dkeys_foldl_dinsert_nodup _ [] (by simp [dkeys])

theorem mem_dkeys_getLocalEntities (files : Files) (k : Val) :
    k ∈ dkeys (getLocalEntities files) ↔
      k ∈ (files.filterMap localEntryOf).map Prod.fst := by
  rw [getLocalEntities, dkeys_foldl_dinsert]
  simp [dkeys]

/-!
## Lemmas about the normalizer
-/

theorem validateFields_keys {r : Rec} {fs : List FieldSpec} {ds : Rec}
    (h : validateFields r fs = some ds) :
    recKeys ds = fs.map FieldSpec.name := by
  induction fs generalizing ds with
  | nil => simp [validateFields] at h; simp [← h, recKeys]
  | cons f fs ih =>
      simp only [validateFields] at h
      cases hv : validateField r f with
      | none => simp [hv] at h
      | some v =>
          rw [hv] at h
          cases hrest : validateFields r fs with
          | none => simp [hrest] at h
          | some rest =>
              rw [hrest] at h
              simp only [Option.map_some] at h
              cases h
              simp [recKeys, List.map_cons] at ih ⊢
              exact ih hrest

theorem validateFields_mem {r : Rec} {fs : List FieldSpec} {ds : Rec}
    (h : validateFields r fs = some ds) {f : FieldSpec} (hf : f ∈ fs) :
    ∃ v, validateField r f = some v ∧ (f.name, v) ∈ ds := by
  induction fs generalizing ds with
  | nil => simp at hf
  | cons g fs ih =>
      simp only [validateFields] at h
      cases hv : validateField r g with
      | none => simp [hv] at h
      | some v =>
          rw [hv] at h
          cases hrest : validateFields r fs with
          | none => simp [hrest] at h
          | some rest =>
              rw [hrest] at h
              simp only [Option.map_some] at h
              cases h
              rcases List.mem_cons.mp hf with rfl | hf'
              · exact ⟨v, hv, List.mem_cons_self _ _⟩
              · obtain ⟨w, hw1, hw2⟩ := ih hrest hf'
                exact ⟨w, hw1, List.mem_cons_of_mem _ hw2⟩

/-- The structure of a successful `normalize`: the validated declared
fields followed by the undeclared input fields, with `None` entries
dropped. -/
theorem Schema.normalize_eq {s : Schema} {r out : Rec}
    (h : s.normalize r = some out) :
    ∃ ds, validateFields r s.fields = some ds ∧
      out = (ds ++ r.filter
          (fun kv => ¬(s.fields.map FieldSpec.name).contains kv.1)).filter
        (fun kv => kv.2 ≠ Val.null) := by
  unfold Schema.normalize at h
  cases hds : validateFields r s.fields with
  | none => rw [hds] at h; simp at h
  | some ds =>
      rw [hds] at h
      simp only [Option.some_inj] at h
      exact ⟨ds, rfl, h.symm⟩

/-- C1 (original claim is false): whatever `normalize` emits is never
`None`-valued, but fields **equal to their declared default** are kept and
**absent** fields are emitted with their default when that default is not
`None`. -/
theorem normalize_no_null {s : Schema} {r out : Rec}
    (h : s.normalize r = some out) : ∀ kv ∈ out, kv.2 ≠ Val.null := by
  obtain ⟨ds, _, rfl⟩ := Schema.normalize_eq h
  intro kv hkv
  have := List.of_mem_filter hkv
  simpa using this

/-- Absent declared fields with a non-`None` default are present in the
output with that default. -/
theorem normalize_absent_default {s : Schema} {r out : Rec}
    (h : s.normalize r = some out) {f : FieldSpec} (hf : f ∈ s.fields)
    (habsent : recLookup r f.name = none) {d : Val} (hd : f.default = some d)
    (hnn : d ≠ Val.null) : (f.name, d) ∈ out := by
  obtain ⟨ds, hds, rfl⟩ := Schema.normalize_eq h
  obtain ⟨v, hv1, hv2⟩ := validateFields_mem hds hf
  rw [validateField, habsent, hd] at hv1
  cases hv1
  refine List.mem_filter.mpr ⟨List.mem_append_left _ hv2, by simpa using hnn⟩

/-- Output key order: declared names first (a subsequence of the schema's
declaration order), then extra keys (a subsequence of the input's key
order), and no extra key is a declared name. -/
theorem normalize_key_order {s : Schema} {r out : Rec}
    (h : s.normalize r = some out) :
    ∃ dk ek, recKeys out = dk ++ ek ∧
      dk.Sublist (s.fields.map FieldSpec.name) ∧
      ek.Sublist (recKeys r) ∧
      ∀ k ∈ ek, ¬(s.fields.map FieldSpec.name).contains k := by
  obtain ⟨ds, hds, rfl⟩ := Schema.normalize_eq h
  rw [List.filter_append]
  refine ⟨recKeys (ds.filter (fun kv => kv.2 ≠ Val.null)),
    recKeys ((r.filter (fun kv => ¬(s.fields.map FieldSpec.name).contains kv.1)).filter
      (fun kv => kv.2 ≠ Val.null)), ?_, ?_, ?_, ?_⟩
  · simp [recKeys]
  · rw [← validateFields_keys hds]
    exact (List.filter_sublist ds).map Prod.fst
  · have h1 : ((r.filter
        (fun kv => ¬(s.fields.map FieldSpec.name).contains kv.1)).filter
          (fun kv => kv.2 ≠ Val.null)).Sublist r :=
      (List.filter_sublist _).trans (List.filter_sublist r)
    exact h1.map Prod.fst
  · intro k hk
    simp only [recKeys, List.mem_map] at hk
    obtain ⟨kv, hkv, rfl⟩ := hk
    have := List.of_mem_filter (List.mem_of_mem_filter hkv)
    simpa using this

/-- The keys of the normalized output are declared names or input keys
(normalization invents no other key). -/
theorem normalize_keys_subset {s : Schema} {r out : Rec}
    (h : s.normalize r = some out) :
    ∀ k ∈ recKeys out, k ∈ s.fields.map FieldSpec.name ∨ k ∈ recKeys r := by
  obtain ⟨ds, hds, rfl⟩ := Schema.normalize_eq h
  intro k hk
  simp only [recKeys, List.mem_map] at hk
  obtain ⟨kv, hkv, rfl⟩ := hk
  have hkv' := List.mem_of_mem_filter hkv
  rcases List.mem_append.mp hkv' with hl | hr
  · left
    rw [← validateFields_keys hds]
    exact List.mem_map.mpr ⟨kv, hl, rfl⟩
  · right
    exact List.mem_map.mpr ⟨kv, List.mem_of_mem_filter hr, rfl⟩

/-!
## Idempotence of the normalizer
-/

theorem mem_unique_of_keys_nodup {l : Rec} {k : String} {v w : Val}
    (hnd : (recKeys l).Nodup) (hv : (k, v) ∈ l) (hw : (k, w) ∈ l) : v = w := by
  have h1 := recLookup_of_mem_nodup hv hnd
  have h2 := recLookup_of_mem_nodup hw hnd
  rw [h1] at h2
  exact Option.some_inj.mp h2

theorem recKeys_filter_sublist (l : Rec) (p : String × Val → Bool) :
    (recKeys (l.filter p)).Sublist (recKeys l) :=
  (List.filter_sublist l).map Prod.fst

/-- The behavioural laws the program's Pydantic validators satisfy; they
are what makes normalization idempotent. -/
structure SchemaLaws (s : Schema) : Prop where
  proj : ∀ f ∈ s.fields, ∀ v w, f.validate v = some w → f.validate w = some w
  defaultFixed : ∀ f ∈ s.fields, ∀ d, f.default = some d → d ≠ Val.null →
    f.validate d = some d
  nullDefault : ∀ f ∈ s.fields, ∀ v, f.validate v = some Val.null →
    f.default = some Val.null
  namesNodup : (s.fields.map FieldSpec.name).Nodup

theorem vStr_proj {v w : Val} (h : vStr v = some w) : vStr w = some w := by
  cases v <;> first
    | (simp [vStr] at h; done)
    | (simp only [vStr, Option.some.injEq] at h; subst h; rfl)

theorem vStr_not_null {v w : Val} (h : vStr v = some w) : w ≠ Val.null := by
  cases v <;> first
    | (simp [vStr] at h; done)
    | (simp only [vStr, Option.some.injEq] at h; subst h; simp)

theorem vOptStr_proj {v w : Val} (h : vOptStr v = some w) :
    vOptStr w = some w := by
  cases v <;> first
    | (simp [vOptStr] at h; done)
    | (simp only [vOptStr, Option.some.injEq] at h; subst h; rfl)

theorem vLiteral_proj {opts : List String} {v w : Val}
    (h : vLiteral opts v = some w) : vLiteral opts w = some w := by
  cases v with
  | str s =>
      simp only [vLiteral] at h
      by_cases hc : opts.contains s
      · rw [if_pos hc, Option.some.injEq] at h
        subst h
        simp only [vLiteral, if_pos hc]
      · rw [if_neg hc] at h; exact absurd h (by simp)
  | int n => simp [vLiteral] at h
  | bool b => simp [vLiteral] at h
  | null => simp [vLiteral] at h
  | list xs => simp [vLiteral] at h
  | map kvs => simp [vLiteral] at h

theorem vLiteral_not_null {opts : List String} {v w : Val}
    (h : vLiteral opts v = some w) : w ≠ Val.null := by
  cases v with
  | str s =>
      simp only [vLiteral] at h
      by_cases hc : opts.contains s
      · rw [if_pos hc, Option.some.injEq] at h
        subst h; simp
      · rw [if_neg hc] at h; exact absurd h (by simp)
  | int n => simp [vLiteral] at h
  | bool b => simp [vLiteral] at h
  | null => simp [vLiteral] at h
  | list xs => simp [vLiteral] at h
  | map kvs => simp [vLiteral] at h

theorem vListMap_proj {v w : Val} (h : vListMap v = some w) :
    vListMap w = some w := by
  cases v with
  | list xs =>
      simp only [vListMap] at h
      by_cases hc : xs.all Val.isMap
      · rw [if_pos hc, Option.some.injEq] at h
        subst h
        simp [vListMap, hc]
      · rw [if_neg hc] at h; exact absurd h (by simp)
  | str s => simp [vListMap] at h
  | int n => simp [vListMap] at h
  | bool b => simp [vListMap] at h
  | null => simp [vListMap] at h
  | map kvs => simp [vListMap] at h

theorem vListMap_not_null {v w : Val} (h : vListMap v = some w) :
    w ≠ Val.null := by
  cases v with
  | list xs =>
      simp only [vListMap] at h
      by_cases hc : xs.all Val.isMap
      · rw [if_pos hc, Option.some.injEq] at h
        subst h; simp
      · rw [if_neg hc] at h; exact absurd h (by simp)
  | str s => simp [vListMap] at h
  | int n => simp [vListMap] at h
  | bool b => simp [vListMap] at h
  | null => simp [vListMap] at h
  | map kvs => simp [vListMap] at h

theorem vMap_proj {v w : Val} (h : vMap v = some w) : vMap w = some w := by
  cases v <;> first
    | (simp [vMap] at h; done)
    | (simp only [vMap, Option.some.injEq] at h; subst h; rfl)

theorem vMap_not_null {v w : Val} (h : vMap v = some w) : w ≠ Val.null := by
  cases v <;> first
    | (simp [vMap] at h; done)
    | (simp only [vMap, Option.some.injEq] at h; subst h; simp)

theorem vBool_proj {v w : Val} (h : vBool v = some w) : vBool w = some w := by
  cases v <;> first
    | (simp [vBool] at h; done)
    | (simp only [vBool, Option.some.injEq] at h; subst h; rfl)

theorem vBool_not_null {v w : Val} (h : vBool v = some w) : w ≠ Val.null := by
  cases v <;> first
    | (simp [vBool] at h; done)
    | (simp only [vBool, Option.some.injEq] at h; subst h; simp)

theorem vOptBool_proj {v w : Val} (h : vOptBool v = some w) :
    vOptBool w = some w := by
  cases v <;> first
    | (simp [vOptBool] at h; done)
    | (simp only [vOptBool, Option.some.injEq] at h; subst h; rfl)

theorem vInt_proj {v w : Val} (h : vInt v = some w) : vInt w = some w := by
  cases v <;> first
    | (simp [vInt] at h; done)
    | (simp only [vInt, Option.some.injEq] at h; subst h; rfl)

theorem vInt_not_null {v w : Val} (h : vInt v = some w) : w ≠ Val.null := by
  cases v <;> first
    | (simp [vInt] at h; done)
    | (simp only [vInt, Option.some.injEq] at h; subst h; simp)

theorem vListStr_proj {v w : Val} (h : vListStr v = some w) :
    vListStr w = some w := by
  cases v with
  | list xs =>
      simp only [vListStr] at h
      by_cases hc : xs.all (fun v => match v with | .str _ => true | _ => false)
      · rw [if_pos hc, Option.some.injEq] at h
        subst h
        simp only [vListStr, if_pos hc]
      · rw [if_neg hc] at h; exact absurd h (by simp)
  | str s => simp [vListStr] at h
  | int n => simp [vListStr] at h
  | bool b => simp [vListStr] at h
  | null => simp [vListStr] at h
  | map kvs => simp [vListStr] at h

theorem vListStr_not_null {v w : Val} (h : vListStr v = some w) :
    w ≠ Val.null := by
  cases v with
  | list xs =>
      simp only [vListStr] at h
      by_cases hc : xs.all (fun v => match v with | .str _ => true | _ => false)
      · rw [if_pos hc, Option.some.injEq] at h
        subst h; simp
      · rw [if_neg hc] at h; exact absurd h (by simp)
  | str s => simp [vListStr] at h
  | int n => simp [vListStr] at h
  | bool b => simp [vListStr] at h
  | null => simp [vListStr] at h
  | map kvs => simp [vListStr] at h

/-- Validating the output fields again reproduces them. -/
theorem validateFields_of_agree {r out : Rec} :
    ∀ {fs : List FieldSpec} {ds : Rec}, validateFields r fs = some ds →
      (∀ f ∈ fs, ∀ v, validateField r f = some v → validateField out f = some v) →
      validateFields out fs = some ds := by
  intro fs
  induction fs with
  | nil => intro ds h _; simpa [validateFields] using h
  | cons f fs ih =>
      intro ds h hagree
      simp only [validateFields] at h ⊢
      cases hv : validateField r f with
      | none => simp [hv] at h
      | some v =>
          rw [hv] at h
          cases hrest : validateFields r fs with
          | none => simp [hrest] at h
          | some rest =>
              rw [hrest] at h
              simp only [Option.map_some] at h
              cases h
              rw [hagree f (List.mem_cons_self _ _) v hv,
                ih hrest (fun g hg => hagree g (List.mem_cons_of_mem _ hg))]
              rfl

theorem filter_idem (l : Rec) (p : String × Val → Bool) :
    (l.filter p).filter p = l.filter p := by
  rw [List.filter_filter]
  simp

/-- Idempotence of `normalize` for a schema satisfying the validator laws
(which all of the program's schemas do). -/
theorem normalize_idem (s : Schema) (L : SchemaLaws s) {r out : Rec}
    (h : s.normalize r = some out) : s.normalize out = some out := by
  obtain ⟨ds, hds, hout⟩ := Schema.normalize_eq h
  have hkeys : recKeys ds = s.fields.map FieldSpec.name := validateFields_keys hds
  have hnds : (recKeys ds).Nodup := by rw [hkeys]; exact L.namesNodup
  rw [List.filter_append] at hout
  -- what looking a declared field up in the output yields
  have hlook : ∀ f ∈ s.fields, ∀ v, validateField r f = some v →
      recLookup out f.name = if v = Val.null then none else some v := by
    intro f hf v hv
    obtain ⟨v', hv', hmem⟩ := validateFields_mem hds hf
    rw [hv] at hv'
    cases hv'
    have hfn : f.name ∈ recKeys ds := List.mem_map.mpr ⟨(f.name, v), hmem, rfl⟩
    rw [hout, recLookup_append]
    by_cases hn : v = Val.null
    · subst hn
      have h1 : recLookup (ds.filter (fun kv => kv.2 ≠ Val.null)) f.name = none := by
        rw [recLookup_eq_none_iff]
        intro hc
        simp only [recKeys, List.mem_map] at hc
        obtain ⟨⟨k, w⟩, hkw, hk⟩ := hc
        cases hk
        have h2 := List.mem_filter.mp hkw
        have h3 := mem_unique_of_keys_nodup hnds h2.1 hmem
        subst h3
        simpa using h2.2
      have h2 : recLookup
          ((r.filter (fun kv => ¬(s.fields.map FieldSpec.name).contains kv.1)).filter
            (fun kv => kv.2 ≠ Val.null)) f.name = none := by
        rw [recLookup_eq_none_iff]
        intro hc
        simp only [recKeys, List.mem_map] at hc
        obtain ⟨⟨k, w⟩, hkw, hk⟩ := hc
        cases hk
        have h3 := List.of_mem_filter (List.mem_of_mem_filter hkw)
        rw [hkeys] at hfn
        simp only [decide_eq_true_eq] at h3
        exact h3 (List.elem_eq_true_of_mem hfn)
      rw [h1, h2]
      simp
    · have h1 : (f.name, v) ∈ ds.filter (fun kv => kv.2 ≠ Val.null) :=
        List.mem_filter.mpr ⟨hmem, by simpa using hn⟩
      have hnd' : (recKeys (ds.filter (fun kv => kv.2 ≠ Val.null))).Nodup :=
        (recKeys_filter_sublist ds _).nodup hnds
      rw [recLookup_of_mem_nodup h1 hnd']
      simp [hn]
  -- each declared field revalidates to the same value
  have hvf : ∀ f ∈ s.fields, ∀ v, validateField r f = some v →
      validateField out f = some v := by
    intro f hf v hv
    rw [validateField, hlook f hf v hv]
    by_cases hn : v = Val.null
    · subst hn
      simp only [if_pos rfl]
      rw [validateField] at hv
      cases hu : recLookup r f.name with
      | some u => rw [hu] at hv; exact (L.nullDefault f hf u hv).symm ▸ rfl
      | none => rw [hu] at hv; exact hv
    · rw [if_neg hn]
      rw [validateField] at hv
      cases hu : recLookup r f.name with
      | some u => rw [hu] at hv; exact L.proj f hf u v hv
      | none => rw [hu] at hv; exact L.defaultFixed f hf v hv hn
  have hvfout : validateFields out s.fields = some ds :=
    validateFields_of_agree hds hvf
  -- the extras of the output are the surviving extras of the input
  have hextras : out.filter (fun kv => ¬(s.fields.map FieldSpec.name).contains kv.1) =
      (r.filter (fun kv => ¬(s.fields.map FieldSpec.name).contains kv.1)).filter
        (fun kv => kv.2 ≠ Val.null) := by
    rw [hout, List.filter_append]
    have h1 : (ds.filter (fun kv => kv.2 ≠ Val.null)).filter
        (fun kv => ¬(s.fields.map FieldSpec.name).contains kv.1) = [] := by
      rw [List.filter_eq_nil_iff]
      intro kv hkv
      have : kv.1 ∈ recKeys ds :=
        List.mem_map.mpr ⟨kv, List.mem_of_mem_filter hkv, rfl⟩
      rw [hkeys] at this
      simp [this]
    have h2 : ((r.filter (fun kv => ¬(s.fields.map FieldSpec.name).contains kv.1)).filter
        (fun kv => kv.2 ≠ Val.null)).filter
          (fun kv => ¬(s.fields.map FieldSpec.name).contains kv.1) =
        (r.filter (fun kv => ¬(s.fields.map FieldSpec.name).contains kv.1)).filter
          (fun kv => kv.2 ≠ Val.null) := by
      rw [List.filter_eq_self]
      intro kv hkv
      have h4 : kv ∈ r.filter
          (fun kv => ¬(s.fields.map FieldSpec.name).contains kv.1) :=
        List.mem_of_mem_filter hkv
      exact (List.mem_filter.mp h4).2
    rw [h1, h2]
    rfl
  -- assemble
  unfold Schema.normalize
  rw [hvfout]
  simp only [Option.some_inj]
  rw [hextras, List.filter_append, filter_idem, ← hout]

/-- The three per-field laws, packaged per field shape. -/
def FieldOk (f : FieldSpec) : Prop :=
  (∀ v w, f.validate v = some w → f.validate w = some w) ∧
  (∀ d, f.default = some d → d ≠ Val.null → f.validate d = some d) ∧
  (∀ v, f.validate v = some Val.null → f.default = some Val.null)

theorem schemaLaws_of_fields {s : Schema} (h : ∀ f ∈ s.fields, FieldOk f)
    (hnd : (s.fields.map FieldSpec.name).Nodup) : SchemaLaws s :=
  ⟨fun f hf => (h f hf).1, fun f hf => (h f hf).2.1, fun f hf => (h f hf).2.2, hnd⟩

theorem fieldOk_vStr_req (n : String) : FieldOk ⟨n, vStr, none⟩ :=
  ⟨fun _ _ => vStr_proj, by simp, fun v h => absurd rfl (vStr_not_null h)⟩

theorem fieldOk_vStr_def (n d : String) : FieldOk ⟨n, vStr, some (.str d)⟩ :=
  ⟨fun _ _ => vStr_proj,
   fun v hv _ => by
     simp only [Option.some.injEq] at hv
     subst hv; rfl,
   fun v h => absurd rfl (vStr_not_null h)⟩

theorem fieldOk_vOptStr (n : String) : FieldOk ⟨n, vOptStr, some .null⟩ :=
  ⟨fun _ _ => vOptStr_proj,
   fun v hv hnn => by
     simp only [Option.some.injEq] at hv
     exact absurd hv.symm hnn,
   fun _ _ => rfl⟩

theorem fieldOk_vLiteral (n : String) (opts : List String) (d : String)
    (hd : opts.contains d) : FieldOk ⟨n, vLiteral opts, some (.str d)⟩ :=
  ⟨fun _ _ => vLiteral_proj,
   fun v hv _ => by
     simp only [Option.some.injEq] at hv
     subst hv
     simp only [vLiteral, if_pos hd],
   fun v h => absurd rfl (vLiteral_not_null h)⟩

theorem fieldOk_vListMap (n : String) : FieldOk ⟨n, vListMap, some (.list [])⟩ :=
  ⟨fun _ _ => vListMap_proj,
   fun v hv _ => by
     simp only [Option.some.injEq] at hv
     subst hv; rfl,
   fun v h => absurd rfl (vListMap_not_null h)⟩

theorem fieldOk_vMap (n : String) : FieldOk ⟨n, vMap, some (.map [])⟩ :=
  ⟨fun _ _ => vMap_proj,
   fun v hv _ => by
     simp only [Option.some.injEq] at hv
     subst hv; rfl,
   fun v h => absurd rfl (vMap_not_null h)⟩

theorem fieldOk_vBool (n : String) (b : Bool) : FieldOk ⟨n, vBool, some (.bool b)⟩ :=
  ⟨fun _ _ => vBool_proj,
   fun v hv _ => by
     simp only [Option.some.injEq] at hv
     subst hv; rfl,
   fun v h => absurd rfl (vBool_not_null h)⟩

theorem fieldOk_vOptBool (n : String) : FieldOk ⟨n, vOptBool, some .null⟩ :=
  ⟨fun _ _ => vOptBool_proj,
   fun v hv hnn => by
     simp only [Option.some.injEq] at hv
     exact absurd hv.symm hnn,
   fun _ _ => rfl⟩

theorem fieldOk_vInt (n : String) (k : Int) : FieldOk ⟨n, vInt, some (.int k)⟩ :=
  ⟨fun _ _ => vInt_proj,
   fun v hv _ => by
     simp only [Option.some.injEq] at hv
     subst hv; rfl,
   fun v h => absurd rfl (vInt_not_null h)⟩

theorem fieldOk_vListStr (n : String) : FieldOk ⟨n, vListStr, some (.list [])⟩ :=
  ⟨fun _ _ => vListStr_proj,
   fun v hv _ => by
     simp only [Option.some.injEq] at hv
     subst hv; rfl,
   fun v h => absurd rfl (vListStr_not_null h)⟩

theorem automationSchema_laws : SchemaLaws automationSchema := by
  refine schemaLaws_of_fields ?_ (by decide)
  intro f hf
  fin_cases hf
  · exact fieldOk_vStr_req _
  · exact fieldOk_vStr_def _ _
  · exact fieldOk_vStr_def _ _
  · exact fieldOk_vListMap _
  · exact fieldOk_vListMap _
  · exact fieldOk_vListMap _
  · exact fieldOk_vLiteral _ _ _ (by decide)

theorem scriptSchema_laws : SchemaLaws scriptSchema := by
  refine schemaLaws_of_fields ?_ (by decide)
  intro f hf
  fin_cases hf
  · exact fieldOk_vStr_req _
  · exact fieldOk_vOptStr _
  · exact fieldOk_vOptStr _
  · exact fieldOk_vOptStr _
  · exact fieldOk_vLiteral _ _ _ (by decide)
  · exact fieldOk_vListMap _

theorem sceneSchema_laws : SchemaLaws sceneSchema := by
  refine schemaLaws_of_fields ?_ (by decide)
  intro f hf
  fin_cases hf
  · exact fieldOk_vStr_req _
  · exact fieldOk_vStr_req _
  · exact fieldOk_vOptStr _
  · exact fieldOk_vMap _

theorem inputBooleanSchema_laws : SchemaLaws inputBooleanSchema := by
  refine schemaLaws_of_fields ?_ (by decide)
  intro f hf
  fin_cases hf
  · exact fieldOk_vStr_req _
  · exact fieldOk_vStr_req _
  · exact fieldOk_vOptStr _
  · exact fieldOk_vOptBool _

theorem inputTextSchema_laws : SchemaLaws inputTextSchema := by
  refine schemaLaws_of_fields ?_ (by decide)
  intro f hf
  fin_cases hf
  · exact fieldOk_vStr_req _
  · exact fieldOk_vStr_req _
  · exact fieldOk_vOptStr _
  · exact fieldOk_vInt _ _
  · exact fieldOk_vInt _ _
  · exact fieldOk_vOptStr _
  · exact fieldOk_vOptStr _
  · exact fieldOk_vLiteral _ _ _ (by decide)

theorem inputSelectSchema_laws : SchemaLaws inputSelectSchema := by
  refine schemaLaws_of_fields ?_ (by decide)
  intro f hf
  fin_cases hf
  · exact fieldOk_vStr_req _
  · exact fieldOk_vStr_req _
  · exact fieldOk_vOptStr _
  · exact fieldOk_vListStr _
  · exact fieldOk_vOptStr _

theorem inputDatetimeSchema_laws : SchemaLaws inputDatetimeSchema := by
  refine schemaLaws_of_fields ?_ (by decide)
  intro f hf
  fin_cases hf
  · exact fieldOk_vStr_req _
  · exact fieldOk_vStr_req _
  · exact fieldOk_vOptStr _
  · exact fieldOk_vBool _ _
  · exact fieldOk_vBool _ _
  · exact fieldOk_vOptStr _

theorem inputButtonSchema_laws : SchemaLaws inputButtonSchema := by
  refine schemaLaws_of_fields ?_ (by decide)
  intro f hf
  fin_cases hf
  · exact fieldOk_vStr_req _
  · exact fieldOk_vStr_req _
  · exact fieldOk_vOptStr _

/-!
## Claims C1 and C8
-/

/-- C1, counterexample: the claim says fields absent or equal to their
declared default are omitted.  On `{"id": "a", "alias": ""}` the
`Automation` normalizer keeps `alias` (present and equal to its declared
default `""`) and emits `description`, `trigger`, `condition`, `action`
and `mode` (absent, filled with their non-`None` declared defaults) — the
code excludes only `None` values (`model_dump(exclude_none=True)`), not
defaults. -/
theorem claim_c1_counterexample :
    automationNormalize [("id", Val.str "a"), ("alias", Val.str "")] =
      some [("id", Val.str "a"), ("alias", Val.str ""),
        ("description", Val.str ""), ("trigger", Val.list []),
        ("condition", Val.list []), ("action", Val.list []),
        ("mode", Val.str "single")] := by decide

/-- C1, amended: for every record a declared schema accepts, `normalize`
(1) never emits a `None`-valued entry, (2) emits an absent declared field
with its declared default whenever that default is not `None`, and
(3) orders the output keys as the schema's declared field order (a
subsequence of it) followed by the extra keys in input order. -/
theorem claim_c1_amended :
    ∀ s ∈ haSchemas, ∀ r out : Rec, s.normalize r = some out →
      (∀ kv ∈ out, kv.2 ≠ Val.null) ∧
      (∀ f ∈ s.fields, recLookup r f.name = none → ∀ d, f.default = some d →
        d ≠ Val.null → (f.name, d) ∈ out) ∧
      (∃ dk ek, recKeys out = dk ++ ek ∧
        dk.Sublist (s.fields.map FieldSpec.name) ∧
        ek.Sublist (recKeys r) ∧
        ∀ k ∈ ek, ¬(s.fields.map FieldSpec.name).contains k) :=
  fun _s _hs _r _out h =>
    ⟨normalize_no_null h,
     fun _f hf ha _d hd hnn => normalize_absent_default h hf ha hd hnn,
     normalize_key_order h⟩

/-- Witness for C1 (amended): on `{"id": "a", "zz": 3}` the `Automation`
schema emits the absent `mode` field with its default. -/
theorem claim_c1_witness :
    ("mode", Val.str "single") ∈
      ([("id", Val.str "a"), ("alias", Val.str ""), ("description", Val.str ""),
        ("trigger", Val.list []), ("condition", Val.list []),
        ("action", Val.list []), ("mode", Val.str "single"),
        ("zz", Val.int 3)] : Rec) :=
  (claim_c1_amended automationSchema (by simp [haSchemas])
      [("id", Val.str "a"), ("zz", Val.int 3)] _ (by decide)).2.1
    ⟨"mode", vLiteral ["single", "restart", "queued", "parallel"],
      some (.str "single")⟩
    (by
      simp only [automationSchema]
      exact List.mem_cons_of_mem _ (List.mem_cons_of_mem _
        (List.mem_cons_of_mem _ (List.mem_cons_of_mem _
          (List.mem_cons_of_mem _ (List.mem_cons_of_mem _
            (List.mem_cons_self _ _)))))))
    (by decide) (Val.str "single") rfl (by decide)

/-- C8: normalization is idempotent for every declared entity schema of
the program: normalizing an accepted record's normal form reproduces it. -/
theorem claim_c8_idempotent :
    ∀ s ∈ haSchemas, ∀ r out : Rec, s.normalize r = some out →
      s.normalize out = some out := by
  intro s hs r out h
  simp only [haSchemas, List.mem_cons, List.not_mem_nil, or_false] at hs
  rcases hs with rfl | rfl | rfl | rfl | rfl | rfl | rfl | rfl
  · exact normalize_idem _ automationSchema_laws h
  · exact normalize_idem _ scriptSchema_laws h
  · exact normalize_idem _ sceneSchema_laws h
  · exact normalize_idem _ inputBooleanSchema_laws h
  · exact normalize_idem _ inputTextSchema_laws h
  · exact normalize_idem _ inputSelectSchema_laws h
  · exact normalize_idem _ inputDatetimeSchema_laws h
  · exact normalize_idem _ inputButtonSchema_laws h

/-!
## The rename detector, analysed
-/

/-- The rename pair one file contributes (none if the file is not a
non-empty mapping, its ids agree, or its filename id is not remote). -/
def renameTrigger (remote : Dict) (p : String × Val) : Option (Val × Val) :=
  match p.2 with
  | .map m =>
      if m.isEmpty then none
      else
        let fid := Val.str p.1
        let cid := (recLookup m "id").getD fid
        if cid ≠ fid ∧ dmem remote fid then some (fid, cid) else none
  | _ => none

theorem detectRenames_foldl (remote : Dict) :
    ∀ (files : Files) (acc : List (Val × Val)),
      files.foldl
        (fun renames p =>
          match p.2 with
          | .map m =>
              if m.isEmpty then renames
              else
                let fid := Val.str p.1
                let cid := (recLookup m "id").getD fid
                if cid ≠ fid ∧ dmem remote fid then vinsert renames fid cid
                else renames
          | _ => renames)
        acc =
      (files.filterMap (renameTrigger remote)).foldl
        (fun acc q => vinsert acc q.1 q.2) acc := by
  intro files
  induction files with
  | nil => intro acc; rfl
  | cons p rest ih =>
      intro acc
      obtain ⟨stem, c⟩ := p
      cases c with
      | map m =>
          by_cases he : m.isEmpty
          · have h1 : renameTrigger remote (stem, Val.map m) = none := by
              simp [renameTrigger, he]
            simp only [List.foldl_cons, List.filterMap_cons, h1]
            rw [if_pos he]
            exact ih acc
          · by_cases hc : ((recLookup m "id").getD (Val.str stem)) ≠ Val.str stem ∧
                dmem remote (Val.str stem) = true
            · have h1 : renameTrigger remote (stem, Val.map m) =
                  some (Val.str stem, (recLookup m "id").getD (Val.str stem)) := by
                simp only [renameTrigger]
                rw [if_neg he, if_pos hc]
              simp only [List.foldl_cons, List.filterMap_cons, h1]
              rw [if_neg he, if_pos hc]
              exact ih _
            · have h1 : renameTrigger remote (stem, Val.map m) = none := by
                simp only [renameTrigger]
                rw [if_neg he, if_neg hc]
              simp only [List.foldl_cons, List.filterMap_cons, h1]
              rw [if_neg he, if_neg hc]
              exact ih acc
      | str s =>
          simp only [List.foldl_cons, List.filterMap_cons, renameTrigger]
          exact ih acc
      | int n =>
          simp only [List.foldl_cons, List.filterMap_cons, renameTrigger]
          exact ih acc
      | bool b =>
          simp only [List.foldl_cons, List.filterMap_cons, renameTrigger]
          exact ih acc
      | null =>
          simp only [List.foldl_cons, List.filterMap_cons, renameTrigger]
          exact ih acc
      | list xs =>
          simp only [List.foldl_cons, List.filterMap_cons, renameTrigger]
          exact ih acc

theorem vinsert_eq_append {d : List (Val × Val)} {k : Val}
    (h : k ∉ d.map Prod.fst) (v : Val) : vinsert d k v = d ++ [(k, v)] := by
  induction d with
  | nil => rfl
  | cons q rest ih =>
      obtain ⟨k', v'⟩ := q
      simp only [List.map_cons, List.mem_cons] at h
      push_neg at h
      rw [vinsert, if_neg (fun he : k' = k => h.1 he.symm)]
      rw [ih h.2]
      simp

theorem foldl_vinsert_eq_append {l : List (Val × Val)} :
    ∀ acc : List (Val × Val),
      ((acc ++ l).map Prod.fst).Nodup →
      l.foldl (fun acc q => vinsert acc q.1 q.2) acc = acc ++ l := by
  induction l with
  | nil => intro acc _; simp
  | cons q rest ih =>
      intro acc hnd
      obtain ⟨k, v⟩ := q
      have hk : k ∉ acc.map Prod.fst := by
        intro hc
        simp only [List.map_append, List.nodup_append] at hnd
        exact hnd.2.2 hc (by simp)
      simp only [List.foldl_cons, vinsert_eq_append hk]
      rw [ih (acc ++ [(k, v)]) (by simpa using hnd)]
      simp

theorem mem_filterMap_trigger_fst {files : Files} {remote : Dict} {q : Val × Val}
    (h : q ∈ files.filterMap (renameTrigger remote)) :
    ∃ stem c, (stem, c) ∈ files ∧ q.1 = Val.str stem := by
  obtain ⟨⟨stem, c⟩, hmem, htr⟩ := List.mem_filterMap.mp h
  refine ⟨stem, c, hmem, ?_⟩
  cases c <;> simp only [renameTrigger] at htr
  case map m =>
    by_cases he : m.isEmpty
    · simp [he] at htr
    · rw [if_neg he] at htr
      split at htr
      · cases htr; rfl
      · exact absurd htr (by simp)
  all_goals exact absurd htr (by simp)

theorem filterMap_trigger_fst_nodup {files : Files} {remote : Dict}
    (hnd : (files.map Prod.fst).Nodup) :
    ((files.filterMap (renameTrigger remote)).map Prod.fst).Nodup := by
  induction files with
  | nil => simp
  | cons p rest ih =>
      obtain ⟨stem, c⟩ := p
      simp only [List.map_cons, List.nodup_cons] at hnd
      cases htr : renameTrigger remote (stem, c) with
      | none => simpa [List.filterMap_cons, htr] using ih hnd.2
      | some q =>
          simp only [List.filterMap_cons, htr, List.map_cons, List.nodup_cons]
          refine ⟨?_, ih hnd.2⟩
          intro hc
          simp only [List.mem_map] at hc
          obtain ⟨q', hq', hfst⟩ := hc
          obtain ⟨stem', c', hmem', hfst'⟩ := mem_filterMap_trigger_fst hq'
          have hq1 : q.1 = Val.str stem := by
            cases c <;> simp only [renameTrigger] at htr
            case map m =>
              by_cases he : m.isEmpty
              · simp [he] at htr
              · rw [if_neg he] at htr
                split at htr
                · cases htr; rfl
                · exact absurd htr (by simp)
            all_goals exact absurd htr (by simp)
          rw [hfst', hq1] at hfst
          have hstem : stem' = stem := by injection hfst
          subst hstem
          exact hnd.1 (List.mem_map.mpr ⟨(stem', c'), hmem', rfl⟩)

/-- With duplicate-free filenames (a directory listing), `detect_renames`
is exactly the per-file rename triggers, in file order. -/
theorem detectRenames_eq {files : Files} {remote : Dict}
    (hnd : (files.map Prod.fst).Nodup) :
    detectRenames files remote = files.filterMap (renameTrigger remote) := by
  rw [detectRenames, detectRenames_foldl]
  exact foldl_vinsert_eq_append []
    (by simpa using filterMap_trigger_fst_nodup hnd)

/-- Membership in the rename map, characterized. -/
theorem mem_detectRenames_iff {files : Files} {remote : Dict}
    (hnd : (files.map Prod.fst).Nodup) (fid cid : Val) :
    (fid, cid) ∈ detectRenames files remote ↔
      ∃ stem m, (stem, Val.map m) ∈ files ∧ m ≠ [] ∧ fid = Val.str stem ∧
        recLookup m "id" = some cid ∧ cid ≠ Val.str stem ∧
        dmem remote (Val.str stem) = true := by
  rw [detectRenames_eq hnd, List.mem_filterMap]
  constructor
  · rintro ⟨⟨stem, c⟩, hmem, htr⟩
    cases c <;> simp only [renameTrigger] at htr
    case map m =>
      by_cases he : m.isEmpty
      · simp [he] at htr
      · rw [if_neg he] at htr
        split at htr
        · rename_i hcond
          cases htr
          refine ⟨stem, m, hmem, by simpa using he, rfl, ?_, hcond.1, hcond.2⟩
          cases hl : recLookup m "id" with
          | none => rw [hl] at hcond; simp at hcond
          | some c0 => simp [hl]
        · exact absurd htr (by simp)
    all_goals exact absurd htr (by simp)
  · rintro ⟨stem, m, hmem, hne, rfl, hid, hcid, hdm⟩
    refine ⟨(stem, Val.map m), hmem, ?_⟩
    have he : m.isEmpty = false := by simpa using hne
    simp only [renameTrigger, he, Bool.false_eq_true, if_false, hid,
      Option.getD_some]
    rw [if_pos ⟨hcid, hdm⟩]

/-!
## Lemmas about `diff`
-/

instance {ε α : Type} [DecidableEq ε] [DecidableEq α] :
    DecidableEq (Except ε α) := fun x y =>
  match x, y with
  | .error a, .error b =>
      if h : a = b then .isTrue (by rw [h]) else .isFalse (by simp [h])
  | .ok a, .ok b =>
      if h : a = b then .isTrue (by rw [h]) else .isFalse (by simp [h])
  | .error _, .ok _ => .isFalse (by simp)
  | .ok _, .error _ => .isFalse (by simp)

theorem exceptMap_ok {α β : Type} {f : α → β} {e : Except String α} {b : β}
    (h : Except.map f e = .ok b) : ∃ a, e = .ok a ∧ f a = b := by
  cases e with
  | error s => simp [Except.map] at h
  | ok a =>
      refine ⟨a, rfl, ?_⟩
      simpa [Except.map] using h

/-- Every diff item the additions/modifications loop emits carries the key
of one of the iterated local entities. -/
theorem diffLocals_ids {norm : Rec → Option Rec} {remote : Dict}
    {renT : List Val} :
    ∀ {l : Dict} {items : List DiffItem},
      diffLocals norm remote renT l = .ok items →
      ∀ it ∈ items, it.entityId ∈ l.map Prod.fst := by
  intro l
  induction l with
  | nil =>
      intro items h it hit
      simp only [diffLocals] at h
      cases h
      simp at hit
  | cons p rest ih =>
      intro items h it hit
      obtain ⟨eid, lcfg⟩ := p
      simp only [diffLocals] at h
      by_cases hc : renT.contains eid
      · rw [if_pos hc] at h
        exact List.mem_cons_of_mem _ (ih h it hit)
      · rw [if_neg hc] at h
        cases hr : dlookup remote eid with
        | none =>
            rw [hr] at h
            obtain ⟨items', h1, h2⟩ := exceptMap_ok h
            subst h2
            rcases List.mem_cons.mp hit with rfl | hit'
            · simp
            · exact List.mem_cons_of_mem _ (ih h1 it hit')
        | some rcfg =>
            rw [hr] at h
            dsimp only at h
            cases hn1 : norm (cleanConfig lcfg) with
            | none => rw [hn1] at h; simp at h
            | some ln =>
                rw [hn1] at h
                cases hn2 : norm (ensureIdInConfig eid rcfg) with
                | none => rw [hn2] at h; simp at h
                | some rn =>
                    rw [hn2] at h
                    obtain ⟨items', h1, h2⟩ := exceptMap_ok h
                    subst h2
                    by_cases hpe : pyEqRec ln rn
                    · rw [if_pos hpe] at hit
                      exact List.mem_cons_of_mem _ (ih h1 it hit)
                    · rw [if_neg hpe] at hit
                      rcases List.mem_cons.mp hit with rfl | hit'
                      · simp
                      · exact List.mem_cons_of_mem _ (ih h1 it hit')

/-- A local entity that is no rename target and is absent remotely is
emitted as `added` with its cleaned config. -/
theorem diffLocals_added {norm : Rec → Option Rec} {remote : Dict}
    {renT : List Val} :
    ∀ {l : Dict} {items : List DiffItem},
      diffLocals norm remote renT l = .ok items →
      ∀ k lc, (k, lc) ∈ l → renT.contains k = false → dlookup remote k = none →
        DiffItem.mk k "added" (some (cleanConfig lc)) none none ∈ items := by
  intro l
  induction l with
  | nil => intro items _ k lc hmem; simp at hmem
  | cons p rest ih =>
      intro items h k lc hmem hren hrem
      obtain ⟨eid, lcfg⟩ := p
      simp only [diffLocals] at h
      rcases List.mem_cons.mp hmem with heq | hmem'
      · obtain ⟨h1, h2⟩ := Prod.mk.injEq .. ▸ heq
        subst h1; subst h2
        rw [if_neg (by rw [hren]; simp), hrem] at h
        obtain ⟨items', h1, h2⟩ := exceptMap_ok h
        subst h2
        simp
      · by_cases hc : renT.contains eid
        · rw [if_pos hc] at h
          exact ih h k lc hmem' hren hrem
        · rw [if_neg hc] at h
          cases hr : dlookup remote eid with
          | none =>
              rw [hr] at h
              obtain ⟨items', h1, h2⟩ := exceptMap_ok h
              subst h2
              exact List.mem_cons_of_mem _ (ih h1 k lc hmem' hren hrem)
          | some rcfg =>
              rw [hr] at h
              dsimp only at h
              cases hn1 : norm (cleanConfig lcfg) with
              | none => rw [hn1] at h; simp at h
              | some ln =>
                  rw [hn1] at h
                  cases hn2 : norm (ensureIdInConfig eid rcfg) with
                  | none => rw [hn2] at h; simp at h
                  | some rn =>
                      rw [hn2] at h
                      obtain ⟨items', h1, h2⟩ := exceptMap_ok h
                      subst h2
                      by_cases hpe : pyEqRec ln rn
                      · rw [if_pos hpe]
                        exact ih h1 k lc hmem' hren hrem
                      · rw [if_neg hpe]
                        exact List.mem_cons_of_mem _ (ih h1 k lc hmem' hren hrem)

/-- A local entity whose normalized form coincides with the remote one
contributes no additions/modifications item at all. -/
theorem diffLocals_no_item {norm : Rec → Option Rec} {remote : Dict}
    {renT : List Val} :
    ∀ {l : Dict} {items : List DiffItem},
      diffLocals norm remote renT l = .ok items →
      (l.map Prod.fst).Nodup →
      ∀ k lc rc n, (k, lc) ∈ l → dlookup remote k = some rc →
        norm (cleanConfig lc) = some n →
        norm (ensureIdInConfig k rc) = some n →
        ∀ it ∈ items, it.entityId ≠ k := by
  intro l
  induction l with
  | nil => intro items _ _ k lc rc n hmem; simp at hmem
  | cons p rest ih =>
      intro items h hnd k lc rc n hmem hrem hln hrn it hit
      obtain ⟨eid, lcfg⟩ := p
      simp only [List.map_cons, List.nodup_cons] at hnd
      simp only [diffLocals] at h
      rcases List.mem_cons.mp hmem with heq | hmem'
      · obtain ⟨h1, h2⟩ := Prod.mk.injEq .. ▸ heq
        subst h1; subst h2
        by_cases hc : renT.contains k
        · rw [if_pos hc] at h
          intro he
          have hmm := diffLocals_ids h it hit
          rw [he] at hmm
          exact hnd.1 hmm
        · rw [if_neg hc, hrem] at h
          dsimp only at h
          rw [hln, hrn] at h
          dsimp only at h
          obtain ⟨items', h1, h2⟩ := exceptMap_ok h
          subst h2
          rw [if_pos (pyEqRec_of_eq rfl)] at hit
          intro he
          have hmm := diffLocals_ids h1 it hit
          rw [he] at hmm
          exact hnd.1 hmm
      · have hne : eid ≠ k := by
          intro hcon
          subst hcon
          exact hnd.1 (List.mem_map.mpr ⟨(eid, lc), hmem', rfl⟩)
        by_cases hc : renT.contains eid
        · rw [if_pos hc] at h
          exact ih h hnd.2 k lc rc n hmem' hrem hln hrn it hit
        · rw [if_neg hc] at h
          cases hr : dlookup remote eid with
          | none =>
              rw [hr] at h
              obtain ⟨items', h1, h2⟩ := exceptMap_ok h
              subst h2
              rcases List.mem_cons.mp hit with rfl | hit'
              · simpa using hne
              · exact ih h1 hnd.2 k lc rc n hmem' hrem hln hrn it hit'
          | some rcfg =>
              rw [hr] at h
              dsimp only at h
              cases hn1 : norm (cleanConfig lcfg) with
              | none => rw [hn1] at h; simp at h
              | some ln =>
                  rw [hn1] at h
                  cases hn2 : norm (ensureIdInConfig eid rcfg) with
                  | none => rw [hn2] at h; simp at h
                  | some rn =>
                      rw [hn2] at h
                      obtain ⟨items', h1, h2⟩ := exceptMap_ok h
                      subst h2
                      by_cases hpe : pyEqRec ln rn
                      · rw [if_pos hpe] at hit
                        exact ih h1 hnd.2 k lc rc n hmem' hrem hln hrn it hit
                      · rw [if_neg hpe] at hit
                        rcases List.mem_cons.mp hit with rfl | hit'
                        · simpa using hne
                        · exact ih h1 hnd.2 k lc rc n hmem' hrem hln hrn it hit'

/-- A remote-only entity that is no rename source is emitted as
`deleted`. -/
theorem diffDeletions_mem {localE : Dict} {renS : List Val} {remote : Dict}
    {k : Val} {rc : Rec} (hmem : (k, rc) ∈ remote)
    (hloc : dmem localE k = false) (hren : renS.contains k = false) :
    DiffItem.mk k "deleted" none (some rc) none ∈
      diffDeletions localE renS remote := by
  rw [diffDeletions]
  refine List.mem_filterMap.mpr ⟨(k, rc), hmem, ?_⟩
  rw [if_pos ⟨by simp [hloc], by rw [hren]; simp⟩]

/-- Every `deleted` item's key is locally absent. -/
theorem diffDeletions_not_local {localE : Dict} {renS : List Val}
    {remote : Dict} {it : DiffItem}
    (h : it ∈ diffDeletions localE renS remote) :
    dmem localE it.entityId = false := by
  rw [diffDeletions] at h
  obtain ⟨⟨k, rc⟩, _, hif⟩ := List.mem_filterMap.mp h
  by_cases hc : ¬dmem localE k = true ∧ ¬renS.contains k = true
  · rw [if_pos hc] at hif
    cases hif
    simpa using hc.1
  · rw [if_neg hc] at hif
    simp at hif

/-- Distinct keys determine their values (generic association lists). -/
theorem mem_unique_of_fst_nodup {α β : Type} {l : List (α × β)} {s : α} {a b : β}
    (hnd : (l.map Prod.fst).Nodup) (ha : (s, a) ∈ l) (hb : (s, b) ∈ l) :
    a = b := by
  induction l with
  | nil => simp at ha
  | cons p rest ih =>
      simp only [List.map_cons, List.nodup_cons] at hnd
      rcases List.mem_cons.mp ha with rfl | ha'
      · rcases List.mem_cons.mp hb with hb0 | hb'
        · exact (Prod.mk.injEq .. ▸ hb0).2.symm ▸ rfl
        · exact absurd (List.mem_map.mpr ⟨(s, b), hb', rfl⟩) hnd.1
      · rcases List.mem_cons.mp hb with rfl | hb'
        · exact absurd (List.mem_map.mpr ⟨(s, a), ha', rfl⟩) hnd.1
        · exact ih hnd.2 ha' hb'

/-- The decomposition of a successful `diff`: rename items, then the
additions/modifications, then the deletions. -/
theorem diffSimple_ok {norm : Rec → Option Rec} {files : Files}
    {remote : Dict} {items : List DiffItem}
    (h : diffSimple norm files remote = .ok items) :
    ∃ addMods,
      diffLocals norm remote ((detectRenames files remote).map Prod.snd)
        (getLocalEntities files) = .ok addMods ∧
      items = ((detectRenames files remote).map
          (fun p => DiffItem.mk p.1 "renamed"
            (dlookup (getLocalEntities files) p.2) (dlookup remote p.1)
            (some p.2))) ++ addMods ++
        diffDeletions (getLocalEntities files)
          ((detectRenames files remote).map Prod.fst) remote := by
  unfold diffSimple at h
  dsimp only at h
  cases hd : diffLocals norm remote ((detectRenames files remote).map Prod.snd)
      (getLocalEntities files) with
  | error e => rw [hd] at h; simp at h
  | ok addMods =>
      rw [hd] at h
      simp only [Except.ok.injEq] at h
      exact ⟨addMods, rfl, h.symm⟩

/-- C2, counterexample: with the stores of spec scenario B (local file
`b1.yaml` whose content id is `b2`; remote has `b1`), the key `b2` is
present in exactly one store (locally), yet the diff's only item is the
`renamed` one — there is no `added` item for `b2` (nor a `deleted` one for
`b1`): pending renames violate the claimed diff soundness. -/
theorem claim_c2_counterexample :
    dmem (getLocalEntities
        [("b1", Val.map [("id", Val.str "b2"), ("alias", Val.str "x")])])
      (Val.str "b2") = true ∧
    dmem [(Val.str "b1", [("id", Val.str "b1"), ("alias", Val.str "x")])]
      (Val.str "b2") = false ∧
    diffSimple automationNormalize
        [("b1", Val.map [("id", Val.str "b2"), ("alias", Val.str "x")])]
        [(Val.str "b1", [("id", Val.str "b1"), ("alias", Val.str "x")])] =
      .ok [DiffItem.mk (Val.str "b1") "renamed"
            (some [("id", Val.str "b2"), ("alias", Val.str "x"),
              ("_filename", Val.str "b1.yaml")])
            (some [("id", Val.str "b1"), ("alias", Val.str "x")])
            (some (Val.str "b2"))] :=
  ⟨by decide, by decide, by decide⟩

/-- C2, amended: **provided no rename is pending**
(`detect_renames` is empty), every key present in exactly one store is
reported `added` (local only) or `deleted` (remote only), and a key whose
local and remote records have equal normalized forms produces no diff item
at all. -/
theorem claim_c2_amended (norm : Rec → Option Rec) (files : Files)
    (remote : Dict) (items : List DiffItem)
    (hren : detectRenames files remote = [])
    (hok : diffSimple norm files remote = .ok items) :
    (∀ k, dmem (getLocalEntities files) k = true → dmem remote k = false →
      ∃ it ∈ items, it.entityId = k ∧ it.status = "added") ∧
    (∀ k, dmem remote k = true → dmem (getLocalEntities files) k = false →
      ∃ it ∈ items, it.entityId = k ∧ it.status = "deleted") ∧
    (∀ k lc rc n, dlookup (getLocalEntities files) k = some lc →
      dlookup remote k = some rc → norm (cleanConfig lc) = some n →
      norm (ensureIdInConfig k rc) = some n →
      ∀ it ∈ items, it.entityId ≠ k) := by
  obtain ⟨addMods, hAM, hitems⟩ := diffSimple_ok hok
  rw [hren] at hAM hitems
  simp only [List.map_nil, List.nil_append] at hAM hitems
  subst hitems
  refine ⟨?_, ?_, ?_⟩
  · intro k hl hr
    rw [dmem] at hl
    obtain ⟨lc, hlc⟩ := Option.isSome_iff_exists.mp hl
    have hnone : dlookup remote k = none := by
      rw [dmem] at hr
      exact Option.not_isSome_iff_eq_none.mp (by simp [hr])
    have hadd := diffLocals_added hAM k lc (mem_of_dlookup_some hlc) rfl hnone
    exact ⟨_, List.mem_append_left _ hadd, rfl, rfl⟩
  · intro k hr hl
    obtain ⟨⟨k1, rc⟩, hp, rfl⟩ :=
      List.mem_map.mp ((dmem_iff_mem_dkeys remote k).mp hr)
    have hdel := @diffDeletions_mem (getLocalEntities files) [] remote k1 rc
      hp hl rfl
    exact ⟨_, List.mem_append_right _ hdel, rfl, rfl⟩
  · intro k lc rc n hlc hrc hln hrn it hit
    rcases List.mem_append.mp hit with hA | hD
    · exact diffLocals_no_item hAM (getLocalEntities_nodup files) k lc rc n
        (mem_of_dlookup_some hlc) hrc hln hrn it hA
    · have hnl := diffDeletions_not_local hD
      intro he
      rw [he, dmem, hlc] at hnl
      simp at hnl

/-- Witness for C2 (amended): one local-only key `a`, one remote-only key
`b`; `a` is reported `added`. -/
theorem claim_c2_witness :
    ∃ it ∈ [DiffItem.mk (Val.str "a") "added" (some [("id", Val.str "a")])
        none none,
      DiffItem.mk (Val.str "b") "deleted" none (some [("id", Val.str "b")])
        none],
      it.entityId = Val.str "a" ∧ it.status = "added" :=
  (claim_c2_amended automationNormalize
      [("a", Val.map [("id", Val.str "a")])]
      [(Val.str "b", [("id", Val.str "b")])]
      [DiffItem.mk (Val.str "a") "added" (some [("id", Val.str "a")])
        none none,
       DiffItem.mk (Val.str "b") "deleted" none (some [("id", Val.str "b")])
        none] (by decide) (by decide)).1
    (Val.str "a") (by decide) (by decide)

/-- C4, counterexample: local file `b1.yaml` has content id `b2 ≠ b1` and
`b1` is absent remotely, so no rename is detected — but the claim's
"reported as added" part fails when `b2` itself exists remotely with equal
content: the diff is empty. -/
theorem claim_c4_counterexample :
    detectRenames
        [("b1", Val.map [("id", Val.str "b2"), ("alias", Val.str "x")])]
        [(Val.str "b2", [("id", Val.str "b2"), ("alias", Val.str "x")])] =
      [] ∧
    diffSimple automationNormalize
        [("b1", Val.map [("id", Val.str "b2"), ("alias", Val.str "x")])]
        [(Val.str "b2", [("id", Val.str "b2"), ("alias", Val.str "x")])] =
      .ok [] :=
  ⟨by decide, by decide⟩

/-- C4, amended: `detect_renames` maps `filenameKey -> contentKey` exactly
for the non-empty mapping files whose embedded id differs from the
filename id while the filename id exists remotely.  A file whose ids
differ but whose filename id is absent remotely yields no rename entry,
and is reported `added` **provided its content id is itself absent
remotely and is not the target of another detected rename**. -/
theorem claim_c4_amended (files : Files) (remote : Dict)
    (hnd : (files.map Prod.fst).Nodup) :
    (∀ fid cid, (fid, cid) ∈ detectRenames files remote ↔
      ∃ stem m, (stem, Val.map m) ∈ files ∧ m ≠ [] ∧ fid = Val.str stem ∧
        recLookup m "id" = some cid ∧ cid ≠ Val.str stem ∧
        dmem remote (Val.str stem) = true) ∧
    (∀ stem m cid, (stem, Val.map m) ∈ files → m ≠ [] →
      recLookup m "id" = some cid → cid ≠ Val.str stem →
      dmem remote (Val.str stem) = false →
      (∀ c, (Val.str stem, c) ∉ detectRenames files remote) ∧
      (dmem remote cid = false →
        ((detectRenames files remote).map Prod.snd).contains cid = false →
        ∀ norm items, diffSimple norm files remote = .ok items →
          ∃ it ∈ items, it.entityId = cid ∧ it.status = "added")) := by
  refine ⟨fun fid cid => mem_detectRenames_iff hnd fid cid, ?_⟩
  intro stem m cid hmem hne hid hcid hrm
  constructor
  · intro c hc
    rw [mem_detectRenames_iff hnd] at hc
    obtain ⟨stem', m', hmem', _, heq, _, _, hdm'⟩ := hc
    have hs : stem = stem' := by injection heq
    subst hs
    rw [hrm] at hdm'
    simp at hdm'
  · intro hcr hct norm items hok
    obtain ⟨addMods, hAM, hitems⟩ := diffSimple_ok hok
    have hentry : localEntryOf (stem, Val.map m) =
        some (cid, recInsert m "_filename" (Val.str (stem ++ ".yaml"))) := by
      have he : m.isEmpty = false := by simpa using hne
      simp [localEntryOf, he, hid]
    have hdl : dmem (getLocalEntities files) cid = true := by
      rw [dmem_iff_mem_dkeys, mem_dkeys_getLocalEntities]
      exact List.mem_map.mpr ⟨(cid, _), List.mem_filterMap.mpr
        ⟨(stem, Val.map m), hmem, hentry⟩, rfl⟩
    rw [dmem] at hdl
    obtain ⟨lc, hlc⟩ := Option.isSome_iff_exists.mp hdl
    have hnone : dlookup remote cid = none := by
      rw [dmem] at hcr
      exact Option.not_isSome_iff_eq_none.mp (by simp [hcr])
    have hadd := diffLocals_added hAM cid lc (mem_of_dlookup_some hlc) hct hnone
    subst hitems
    exact ⟨_, List.mem_append.mpr (Or.inl (List.mem_append_right _ hadd)),
      rfl, rfl⟩

/-- Witness for C4 (amended): a single local file `b1.yaml` with content
id `b2` and an empty remote store: no rename is detected and `b2` is
reported `added`. -/
theorem claim_c4_witness :
    ∃ it ∈ [DiffItem.mk (Val.str "b2") "added"
        (some [("id", Val.str "b2")]) none none],
      it.entityId = Val.str "b2" ∧ it.status = "added" :=
  ((claim_c4_amended [("b1", Val.map [("id", Val.str "b2")])] []
        (by decide)).2 "b1" [("id", Val.str "b2")] (Val.str "b2")
      (by simp) (by decide) rfl (by decide) (by decide)).2
    (by decide) (by decide) automationNormalize
    [DiffItem.mk (Val.str "b2") "added" (some [("id", Val.str "b2")]) none none]
    (by decide)

/-- C10: a local YAML file whose content is a mapping without an `id`
field is keyed by its filename-derived id, and never produces a rename
entry (its content id defaults to the filename id, so they cannot
differ). -/
theorem claim_c10_no_id (files : Files) (remote : Dict) (stem : String)
    (m : Rec) (hmem : (stem, Val.map m) ∈ files) (hne : m ≠ [])
    (hid : recLookup m "id" = none) (hnd : (files.map Prod.fst).Nodup) :
    localEntryOf (stem, Val.map m) =
      some (Val.str stem, recInsert m "_filename" (Val.str (stem ++ ".yaml"))) ∧
    dmem (getLocalEntities files) (Val.str stem) = true ∧
    ∀ c, (Val.str stem, c) ∉ detectRenames files remote := by
  have he : m.isEmpty = false := by simpa using hne
  have hentry : localEntryOf (stem, Val.map m) =
      some (Val.str stem, recInsert m "_filename" (Val.str (stem ++ ".yaml"))) := by
    simp [localEntryOf, he, hid]
  refine ⟨hentry, ?_, ?_⟩
  · rw [dmem_iff_mem_dkeys, mem_dkeys_getLocalEntities]
    exact List.mem_map.mpr ⟨(Val.str stem, _), List.mem_filterMap.mpr
      ⟨(stem, Val.map m), hmem, hentry⟩, rfl⟩
  · intro c hc
    rw [mem_detectRenames_iff hnd] at hc
    obtain ⟨stem', m', hmem', _, heq, hid', _, _⟩ := hc
    have hs : stem = stem' := by injection heq
    subst hs
    have hm : Val.map m = Val.map m' := mem_unique_of_fst_nodup hnd hmem hmem'
    have hm' : m = m' := by injection hm
    subst hm'
    rw [hid] at hid'
    exact Option.noConfusion hid'

/-- Witness for C10: a file `x.yaml` without an `id` field is keyed `x`
and triggers no rename. -/
theorem claim_c10_witness :
    dmem (getLocalEntities [("x", Val.map [("name", Val.str "n")])])
      (Val.str "x") = true :=
  (claim_c10_no_id [("x", Val.map [("name", Val.str "n")])] [] "x"
      [("name", Val.str "n")] (by simp) (by decide) rfl (by decide)).2.1

/-- Witness for C8: renormalizing the `Automation` normal form of
`{"id": "a"}` reproduces it. -/
theorem claim_c8_witness :
    automationSchema.normalize
      [("id", Val.str "a"), ("alias", Val.str ""), ("description", Val.str ""),
       ("trigger", Val.list []), ("condition", Val.list []),
       ("action", Val.list []), ("mode", Val.str "single")] =
    some [("id", Val.str "a"), ("alias", Val.str ""), ("description", Val.str ""),
       ("trigger", Val.list []), ("condition", Val.list []),
       ("action", Val.list []), ("mode", Val.str "single")] :=
  claim_c8_idempotent automationSchema (by simp [haSchemas])
    [("id", Val.str "a")] _ (by decide)

/-!
## Lemmas about `push`
-/

theorem recLookup_recInsert_self (r : Rec) (k : String) (v : Val) :
    recLookup (recInsert r k v) k = some v := by
  induction r with
  | nil => simp [recInsert, recLookup]
  | cons p rest ih =>
      obtain ⟨k', v'⟩ := p
      by_cases h : k' = k
      · subst h; simp [recInsert, recLookup]
      · simp [recInsert, recLookup, h, ih]

theorem recLookup_recInsert_ne (r : Rec) {k k' : String} (h : k' ≠ k)
    (v : Val) : recLookup (recInsert r k v) k' = recLookup r k' := by
  induction r with
  | nil => simp [recInsert, recLookup, Ne.symm h]
  | cons p rest ih =>
      obtain ⟨k0, v0⟩ := p
      by_cases h0 : k0 = k
      · subst h0
        simp [recInsert, recLookup, Ne.symm h]
      · by_cases h1 : k0 = k'
        · subst h1; simp [recInsert, recLookup, h0]
        · simp [recInsert, recLookup, h0, h1, ih]

theorem recLookup_filter_ne (r : Rec) (o s : String) :
    recLookup (r.filter (fun p => p.1 ≠ o)) s =
      if s = o then none else recLookup r s := by
  induction r with
  | nil => simp [recLookup, ite_self]
  | cons p rest ih =>
      obtain ⟨k, v⟩ := p
      by_cases hk : k = o
      · subst hk
        simp only [List.filter_cons]
        rw [if_neg (by simp)]
        rw [ih]
        by_cases hs : s = k
        · simp [hs]
        · simp [recLookup, hs, Ne.symm hs]
      · simp only [List.filter_cons]
        rw [if_pos (by simpa using hk)]
        by_cases hks : k = s
        · subst hks
          simp [recLookup, hk]
        · simp only [recLookup, if_neg hks]
          simpa using ih

/-- The rename pairs a push run records: both in a dry run and in an
all-success real run (each pending rename item contributes its pair). -/
def renPairs (items : List DiffItem) : List (Val × Val) :=
  items.filterMap
    (fun it =>
      match it.newId with
      | some nid =>
          if it.status = "renamed" ∧ nid.truthy then some (it.entityId, nid)
          else none
      | none => none)

/-- The created/updated classification the create/update phase appends. -/
def cuApply (remote0 : Dict) (l : Dict) (res : SyncResult) : SyncResult :=
  l.foldl (fun res p => recordCU res (dmem remote0 p.1) p.1) res

theorem renamePhase_dry (O : Oracle) :
    ∀ (items : List DiffItem) (st : PushState),
      renamePhase O true items st =
        { st with res :=
            { st.res with renamed := st.res.renamed ++ renPairs items } } := by
  intro items
  induction items with
  | nil => intro st; simp [renamePhase, renPairs]
  | cons it rest ih =>
      intro st
      cases hnid : it.newId with
      | none =>
          have hrp : renPairs (it :: rest) = renPairs rest := by
            simp [renPairs, List.filterMap_cons, hnid]
          simp only [renamePhase, hnid]
          rw [ih, hrp]
      | some nid =>
          by_cases hcond : it.status = "renamed" ∧ nid.truthy = true
          · have hrp : renPairs (it :: rest) = (it.entityId, nid) :: renPairs rest := by
              simp [renPairs, List.filterMap_cons, hnid, hcond]
            simp only [renamePhase, hnid]
            rw [if_pos hcond, if_pos trivial, ih, hrp]
            simp
          · have hrp : renPairs (it :: rest) = renPairs rest := by
              simp [renPairs, List.filterMap_cons, hnid, hcond]
            simp only [renamePhase, hnid]
            rw [if_neg hcond, ih, hrp]

theorem cuPhase_dry (O : Oracle) (remote0 : Dict) :
    ∀ (l : Dict) (st : PushState),
      cuPhase O true remote0 l st = { st with res := cuApply remote0 l st.res } := by
  intro l
  induction l with
  | nil => intro st; simp [cuPhase, cuApply]
  | cons p rest ih =>
      intro st
      obtain ⟨eid, cfg⟩ := p
      simp only [cuPhase]
      rw [if_pos trivial, ih]
      simp [cuApply]

theorem delPhase_dry (O : Oracle) :
    ∀ (l : List Val) (st : PushState),
      delPhase O true l st =
        { st with res := { st.res with deleted := st.res.deleted ++ l } } := by
  intro l
  induction l with
  | nil => intro st; simp [delPhase]
  | cons eid rest ih =>
      intro st
      simp only [delPhase]
      rw [if_pos trivial, ih]
      simp

/-- The events the rename phase may emit, tied to a pending rename item. -/
def renameEvOf (items : List DiffItem) (e : Ev) : Prop :=
  ∃ it ∈ items, it.status = "renamed" ∧ ∃ nid, it.newId = some nid ∧
    (e = Ev.deleteRemote it.entityId ∨
     (∃ m, e = Ev.saveRemote nid (cleanConfig m)) ∨
     e = Ev.renameLocal (valFmt it.entityId) (valFmt nid))

theorem renameEvOf_cons {items : List DiffItem} {it : DiffItem} {e : Ev}
    (h : renameEvOf items e) : renameEvOf (it :: items) e := by
  obtain ⟨it', hmem, hrest⟩ := h
  exact ⟨it', List.mem_cons_of_mem _ hmem, hrest⟩

theorem renamePhase_trace (O : Oracle) (dry : Bool) :
    ∀ (items : List DiffItem) (st : PushState), ∃ t,
      (renamePhase O dry items st).trace = st.trace ++ t ∧
      ∀ e ∈ t, renameEvOf items e := by
  intro items
  induction items with
  | nil => intro st; exact ⟨[], by simp [renamePhase], by simp⟩
  | cons it rest ih =>
      intro st
      cases hnid : it.newId with
      | none =>
          simp only [renamePhase, hnid]
          obtain ⟨t, ht, ha⟩ := ih st
          exact ⟨t, ht, fun e he => renameEvOf_cons (ha e he)⟩
      | some nid =>
          by_cases hcond : it.status = "renamed" ∧ nid.truthy = true
          · simp only [renamePhase, hnid]
            rw [if_pos hcond]
            by_cases hdry : dry = true
            · rw [if_pos hdry]
              obtain ⟨t, ht, ha⟩ := ih { st with res :=
                { st.res with renamed := st.res.renamed ++ [(it.entityId, nid)] } }
              exact ⟨t, ht, fun e he => renameEvOf_cons (ha e he)⟩
            · rw [if_neg hdry]
              cases hlook : recLookup st.files (valFmt it.entityId) with
              | none =>
                  simp only [hlook]
                  obtain ⟨t, ht, ha⟩ := ih st
                  exact ⟨t, ht, fun e he => renameEvOf_cons (ha e he)⟩
              | some v =>
                  cases v with
                  | map m =>
                      simp only [hlook]
                      by_cases he : m.isEmpty = true
                      · rw [if_pos he]
                        obtain ⟨t, ht, ha⟩ := ih st
                        exact ⟨t, ht, fun e he => renameEvOf_cons (ha e he)⟩
                      · rw [if_neg he]
                        by_cases hdel : O.deleteOk it.entityId = true
                        · rw [if_pos hdel]
                          by_cases hsave : O.saveOk nid = true
                          · rw [if_pos hsave]
                            obtain ⟨t, ht, ha⟩ := ih
                              { files := renameFile st.files (valFmt it.entityId) (valFmt nid),
                                remote := dinsert (dremove st.remote it.entityId) nid (cleanConfig m),
                                res := { st.res with renamed := st.res.renamed ++ [(it.entityId, nid)] },
                                trace := st.trace ++ [Ev.deleteRemote it.entityId] ++
                                  [Ev.saveRemote nid (cleanConfig m)] ++
                                  [Ev.renameLocal (valFmt it.entityId) (valFmt nid)] }
                            refine ⟨[Ev.deleteRemote it.entityId,
                                Ev.saveRemote nid (cleanConfig m),
                                Ev.renameLocal (valFmt it.entityId) (valFmt nid)] ++ t, ?_, ?_⟩
                            · rw [ht]; simp
                            · intro e hme
                              rcases List.mem_append.mp hme with hh | hh
                              · simp only [List.mem_cons, List.not_mem_nil,
                                  or_false] at hh
                                rcases hh with rfl | rfl | rfl
                                · exact ⟨it, List.mem_cons_self _ _, hcond.1,
                                    nid, hnid, Or.inl rfl⟩
                                · exact ⟨it, List.mem_cons_self _ _, hcond.1,
                                    nid, hnid, Or.inr (Or.inl ⟨m, rfl⟩)⟩
                                · exact ⟨it, List.mem_cons_self _ _, hcond.1,
                                    nid, hnid, Or.inr (Or.inr rfl)⟩
                              · exact renameEvOf_cons (ha e hh)
                          · rw [if_neg hsave]
                            obtain ⟨t, ht, ha⟩ := ih
                              { files := st.files,
                                remote := dremove st.remote it.entityId,
                                res := { st.res with errors := st.res.errors ++ [(it.entityId, "save_remote failed")] },
                                trace := st.trace ++ [Ev.deleteRemote it.entityId] ++
                                  [Ev.saveRemote nid (cleanConfig m)] }
                            refine ⟨[Ev.deleteRemote it.entityId,
                                Ev.saveRemote nid (cleanConfig m)] ++ t, ?_, ?_⟩
                            · rw [ht]; simp
                            · intro e hme
                              rcases List.mem_append.mp hme with hh | hh
                              · simp only [List.mem_cons, List.not_mem_nil,
                                  or_false] at hh
                                rcases hh with rfl | rfl
                                · exact ⟨it, List.mem_cons_self _ _, hcond.1,
                                    nid, hnid, Or.inl rfl⟩
                                · exact ⟨it, List.mem_cons_self _ _, hcond.1,
                                    nid, hnid, Or.inr (Or.inl ⟨m, rfl⟩)⟩
                              · exact renameEvOf_cons (ha e hh)
                        · rw [if_neg hdel]
                          obtain ⟨t, ht, ha⟩ := ih
                            { files := st.files, remote := st.remote,
                              res := { st.res with errors := st.res.errors ++ [(it.entityId, "delete_remote failed")] },
                              trace := st.trace ++ [Ev.deleteRemote it.entityId] }
                          refine ⟨[Ev.deleteRemote it.entityId] ++ t, ?_, ?_⟩
                          · rw [ht]; simp
                          · intro e hme
                            rcases List.mem_append.mp hme with hh | hh
                            · simp only [List.mem_cons, List.not_mem_nil,
                                or_false] at hh
                              subst hh
                              exact ⟨it, List.mem_cons_self _ _, hcond.1, nid,
                                hnid, Or.inl rfl⟩
                            · exact renameEvOf_cons (ha e hh)
                  | str s =>
                      simp only [hlook]
                      by_cases ht : (Val.str s).truthy = true
                      all_goals
                        first
                          | (rw [if_pos ht]
                             obtain ⟨t, h1, ha⟩ := ih { st with res :=
                               { st.res with errors := st.res.errors ++ [(it.entityId, "clean_config failed")] } }
                             exact ⟨t, h1, fun e he => renameEvOf_cons (ha e he)⟩)
                          | (rw [if_neg ht]
                             obtain ⟨t, h1, ha⟩ := ih st
                             exact ⟨t, h1, fun e he => renameEvOf_cons (ha e he)⟩)
                  | int n =>
                      simp only [hlook]
                      by_cases ht : (Val.int n).truthy = true
                      all_goals
                        first
                          | (rw [if_pos ht]
                             obtain ⟨t, h1, ha⟩ := ih { st with res :=
                               { st.res with errors := st.res.errors ++ [(it.entityId, "clean_config failed")] } }
                             exact ⟨t, h1, fun e he => renameEvOf_cons (ha e he)⟩)
                          | (rw [if_neg ht]
                             obtain ⟨t, h1, ha⟩ := ih st
                             exact ⟨t, h1, fun e he => renameEvOf_cons (ha e he)⟩)
                  | bool b =>
                      simp only [hlook]
                      by_cases ht : (Val.bool b).truthy = true
                      all_goals
                        first
                          | (rw [if_pos ht]
                             obtain ⟨t, h1, ha⟩ := ih { st with res :=
                               { st.res with errors := st.res.errors ++ [(it.entityId, "clean_config failed")] } }
                             exact ⟨t, h1, fun e he => renameEvOf_cons (ha e he)⟩)
                          | (rw [if_neg ht]
                             obtain ⟨t, h1, ha⟩ := ih st
                             exact ⟨t, h1, fun e he => renameEvOf_cons (ha e he)⟩)
                  | null =>
                      simp only [hlook]
                      by_cases ht : Val.null.truthy = true
                      all_goals
                        first
                          | (rw [if_pos ht]
                             obtain ⟨t, h1, ha⟩ := ih { st with res :=
                               { st.res with errors := st.res.errors ++ [(it.entityId, "clean_config failed")] } }
                             exact ⟨t, h1, fun e he => renameEvOf_cons (ha e he)⟩)
                          | (rw [if_neg ht]
                             obtain ⟨t, h1, ha⟩ := ih st
                             exact ⟨t, h1, fun e he => renameEvOf_cons (ha e he)⟩)
                  | list xs =>
                      simp only [hlook]
                      by_cases ht : (Val.list xs).truthy = true
                      all_goals
                        first
                          | (rw [if_pos ht]
                             obtain ⟨t, h1, ha⟩ := ih { st with res :=
                               { st.res with errors := st.res.errors ++ [(it.entityId, "clean_config failed")] } }
                             exact ⟨t, h1, fun e he => renameEvOf_cons (ha e he)⟩)
                          | (rw [if_neg ht]
                             obtain ⟨t, h1, ha⟩ := ih st
                             exact ⟨t, h1, fun e he => renameEvOf_cons (ha e he)⟩)
          · simp only [renamePhase, hnid]
            rw [if_neg hcond]
            obtain ⟨t, ht, ha⟩ := ih st
            exact ⟨t, ht, fun e he => renameEvOf_cons (ha e he)⟩

theorem cuPhase_trace (O : Oracle) (dry : Bool) (remote0 : Dict) :
    ∀ (l : Dict) (st : PushState), ∃ t,
      (cuPhase O dry remote0 l st).trace = st.trace ++ t ∧
      ∀ e ∈ t, ∃ i cfg, e = Ev.saveRemote i (cleanConfig cfg) := by
  intro l
  induction l with
  | nil => intro st; exact ⟨[], by simp [cuPhase], by simp⟩
  | cons p rest ih =>
      intro st
      obtain ⟨eid, cfg⟩ := p
      simp only [cuPhase]
      by_cases hdry : dry = true
      · rw [if_pos hdry]
        obtain ⟨t, ht, ha⟩ := ih { st with res := recordCU st.res (dmem remote0 eid) eid }
        exact ⟨t, ht, ha⟩
      · rw [if_neg hdry]
        by_cases hsave : O.saveOk eid = true
        · rw [if_pos hsave]
          obtain ⟨t, ht, ha⟩ := ih
            { files := st.files, remote := dinsert st.remote eid (cleanConfig cfg),
              res := recordCU st.res (dmem remote0 eid) eid,
              trace := st.trace ++ [Ev.saveRemote eid (cleanConfig cfg)] }
          refine ⟨[Ev.saveRemote eid (cleanConfig cfg)] ++ t, ?_, ?_⟩
          · rw [ht]; simp
          · intro e hme
            rcases List.mem_append.mp hme with hh | hh
            · simp only [List.mem_cons, List.not_mem_nil, or_false] at hh
              subst hh
              exact ⟨eid, cfg, rfl⟩
            · exact ha e hh
        · rw [if_neg hsave]
          obtain ⟨t, ht, ha⟩ := ih
            { files := st.files, remote := st.remote,
              res := { st.res with errors := st.res.errors ++ [(eid, "save_remote failed")] },
              trace := st.trace ++ [Ev.saveRemote eid (cleanConfig cfg)] }
          refine ⟨[Ev.saveRemote eid (cleanConfig cfg)] ++ t, ?_, ?_⟩
          · rw [ht]; simp
          · intro e hme
            rcases List.mem_append.mp hme with hh | hh
            · simp only [List.mem_cons, List.not_mem_nil, or_false] at hh
              subst hh
              exact ⟨eid, cfg, rfl⟩
            · exact ha e hh

theorem delPhase_trace (O : Oracle) (dry : Bool) :
    ∀ (l : List Val) (st : PushState), ∃ t,
      (delPhase O dry l st).trace = st.trace ++ t ∧
      ∀ e ∈ t, ∃ i, e = Ev.deleteRemote i := by
  intro l
  induction l with
  | nil => intro st; exact ⟨[], by simp [delPhase], by simp⟩
  | cons eid rest ih =>
      intro st
      simp only [delPhase]
      by_cases hdry : dry = true
      · rw [if_pos hdry]
        obtain ⟨t, ht, ha⟩ := ih
          { st with res := { st.res with deleted := st.res.deleted ++ [eid] } }
        exact ⟨t, ht, ha⟩
      · rw [if_neg hdry]
        by_cases hdel : O.deleteOk eid = true
        · rw [if_pos hdel]
          obtain ⟨t, ht, ha⟩ := ih
            { files := st.files, remote := dremove st.remote eid,
              res := { st.res with deleted := st.res.deleted ++ [eid] },
              trace := st.trace ++ [Ev.deleteRemote eid] }
          refine ⟨[Ev.deleteRemote eid] ++ t, ?_, ?_⟩
          · rw [ht]; simp
          · intro e hme
            rcases List.mem_append.mp hme with hh | hh
            · simp only [List.mem_cons, List.not_mem_nil, or_false] at hh
              subst hh
              exact ⟨eid, rfl⟩
            · exact ha e hh
        · rw [if_neg hdel]
          obtain ⟨t, ht, ha⟩ := ih
            { files := st.files, remote := st.remote,
              res := { st.res with errors := st.res.errors ++ [(eid, "delete_remote failed")] },
              trace := st.trace ++ [Ev.deleteRemote eid] }
          refine ⟨[Ev.deleteRemote eid] ++ t, ?_, ?_⟩
          · rw [ht]; simp
          · intro e hme
            rcases List.mem_append.mp hme with hh | hh
            · simp only [List.mem_cons, List.not_mem_nil, or_false] at hh
              subst hh
              exact ⟨eid, rfl⟩
            · exact ha e hh

/-- The deletion/identity step of `pushCore` never changes the result's
error-free trace shape; the reload step only appends the reload event. -/
theorem reloadPhase_trace (dry : Bool) (st : PushState) :
    (reloadPhase dry st).trace =
      st.trace ++ (if ¬dry = true ∧ st.res.hasChanges = true then [Ev.reloadRemote] else []) ∧
    (reloadPhase dry st).res = st.res := by
  rw [reloadPhase]
  by_cases hc : ¬dry = true ∧ st.res.hasChanges = true
  · rw [if_pos hc, if_pos hc]; exact ⟨rfl, rfl⟩
  · rw [if_neg hc, if_neg hc]; exact ⟨by simp, rfl⟩

theorem pushSimple_ok {norm : Rec → Option Rec} {files : Files}
    {remote0 : Dict} {flags : PushFlags} {O : Oracle} {out : PushState}
    (h : pushSimple norm files remote0 flags O = .ok out) :
    ∃ items, diffSimple norm files remote0 = .ok items ∧
      out = pushCore O flags items (getLocalEntities files) files remote0 := by
  unfold pushSimple at h
  cases hd : diffSimple norm files remote0 with
  | error e => rw [hd] at h; simp at h
  | ok items =>
      rw [hd] at h
      simp only [Except.ok.injEq] at h
      exact ⟨items, rfl, h.symm⟩

theorem renameEvOf_ne_reload {items : List DiffItem} {e : Ev}
    (h : renameEvOf items e) : e ≠ Ev.reloadRemote := by
  obtain ⟨it, _, _, nid, _, h3⟩ := h
  rcases h3 with rfl | ⟨m, rfl⟩ | rfl <;> simp

/-- C5: in every run of `push`, the trace splits into the rename phase,
then the create/update saves, then the deletions, then (exactly when the
run is not dry and the result records a change) a single reload — which is
therefore invoked at most once and only after all other operations. -/
theorem claim_c5_push_order (norm : Rec → Option Rec) (files : Files)
    (remote0 : Dict) (flags : PushFlags) (O : Oracle) (items : List DiffItem)
    (out : PushState)
    (hd : diffSimple norm files remote0 = .ok items)
    (hp : pushSimple norm files remote0 flags O = .ok out) :
    ∃ t1 t2 t3,
      out.trace = t1 ++ t2 ++ t3 ++
        (if ¬flags.dryRun = true ∧ out.res.hasChanges = true then
          [Ev.reloadRemote] else []) ∧
      (∀ e ∈ t1, renameEvOf items e) ∧
      (∀ e ∈ t2, ∃ i cfg, e = Ev.saveRemote i (cleanConfig cfg)) ∧
      (∀ e ∈ t3, ∃ i, e = Ev.deleteRemote i) ∧
      out.trace.count Ev.reloadRemote =
        (if ¬flags.dryRun = true ∧ out.res.hasChanges = true then 1 else 0) := by
  obtain ⟨items0, hd0, hout⟩ := pushSimple_ok hp
  rw [hd] at hd0
  injection hd0 with hi
  subst hi
  rw [pushCore] at hout
  obtain ⟨t1, h1, a1⟩ := renamePhase_trace O flags.dryRun items
    ⟨files, remote0, SyncResult.empty, []⟩
  obtain ⟨t2, h2, a2⟩ := cuPhase_trace O flags.dryRun remote0
    (cuItems flags.force (getLocalEntities files) (processedIds items) items)
    (renamePhase O flags.dryRun items ⟨files, remote0, SyncResult.empty, []⟩)
  set st2 := cuPhase O flags.dryRun remote0
    (cuItems flags.force (getLocalEntities files) (processedIds items) items)
    (renamePhase O flags.dryRun items ⟨files, remote0, SyncResult.empty, []⟩)
    with hst2
  by_cases hsd : flags.syncDeletions = true
  · obtain ⟨t3, h3, a3⟩ := delPhase_trace O flags.dryRun
      (delItems flags.force (getLocalEntities files) remote0
        (processedIds items) items) st2
    set st3 := delPhase O flags.dryRun
      (delItems flags.force (getLocalEntities files) remote0
        (processedIds items) items) st2 with hst3
    obtain ⟨hrt, hrr⟩ := reloadPhase_trace flags.dryRun st3
    rw [if_pos hsd] at hout
    refine ⟨t1, t2, t3, ?_, a1, a2, a3, ?_⟩
    · rw [hout, hrt, hrr, h3, h2, h1]
      simp
    · rw [hout, hrt, hrr, h3, h2, h1]
      simp only [List.nil_append, List.count_append]
      have z1 : t1.count Ev.reloadRemote = 0 :=
        List.count_eq_zero.mpr (fun hc => renameEvOf_ne_reload (a1 _ hc) rfl)
      have z2 : t2.count Ev.reloadRemote = 0 :=
        List.count_eq_zero.mpr
          (fun hc => by obtain ⟨i, cfg, he⟩ := a2 _ hc; simp at he)
      have z3 : t3.count Ev.reloadRemote = 0 :=
        List.count_eq_zero.mpr
          (fun hc => by obtain ⟨i, he⟩ := a3 _ hc; simp at he)
      rw [z1, z2, z3]
      by_cases hc : ¬flags.dryRun = true ∧ st3.res.hasChanges = true
      · rw [if_pos hc, if_pos hc]; simp
      · rw [if_neg hc, if_neg hc]; simp
  · rw [if_neg hsd] at hout
    obtain ⟨hrt, hrr⟩ := reloadPhase_trace flags.dryRun st2
    refine ⟨t1, t2, [], ?_, a1, a2, by simp, ?_⟩
    · rw [hout, hrt, hrr, h2, h1]
      simp
    · rw [hout, hrt, hrr, h2, h1]
      simp only [List.nil_append, List.count_append]
      have z1 : t1.count Ev.reloadRemote = 0 :=
        List.count_eq_zero.mpr (fun hc => renameEvOf_ne_reload (a1 _ hc) rfl)
      have z2 : t2.count Ev.reloadRemote = 0 :=
        List.count_eq_zero.mpr
          (fun hc => by obtain ⟨i, cfg, he⟩ := a2 _ hc; simp at he)
      rw [z1, z2]
      by_cases hc : ¬flags.dryRun = true ∧ st2.res.hasChanges = true
      · rw [if_pos hc, if_pos hc]; simp
      · rw [if_neg hc, if_neg hc]; simp

theorem claim_c5_witness :
    diffSimple (fun r => some r) [("d", Val.map [("id", Val.str "d")])] [] =
      .ok [⟨Val.str "d", "added", some [("id", Val.str "d")], none, none⟩] ∧
    pushSimple (fun r => some r) [("d", Val.map [("id", Val.str "d")])] []
      ⟨false, false, false⟩ Oracle.allOk =
      .ok ⟨[("d", Val.map [("id", Val.str "d")])],
        [(Val.str "d", [("id", Val.str "d")])],
        ⟨[Val.str "d"], [], [], [], []⟩,
        [Ev.saveRemote (Val.str "d") [("id", Val.str "d")], Ev.reloadRemote]⟩ ∧
    (∃ t1 t2 t3,
      (⟨[("d", Val.map [("id", Val.str "d")])],
        [(Val.str "d", [("id", Val.str "d")])],
        ⟨[Val.str "d"], [], [], [], []⟩,
        [Ev.saveRemote (Val.str "d") [("id", Val.str "d")], Ev.reloadRemote]⟩ :
          PushState).trace = t1 ++ t2 ++ t3 ++
        (if ¬(⟨false, false, false⟩ : PushFlags).dryRun = true ∧
            (⟨[Val.str "d"], [], [], [], []⟩ : SyncResult).hasChanges = true then
          [Ev.reloadRemote] else []) ∧
      (∀ e ∈ t1,
        renameEvOf [⟨Val.str "d", "added", some [("id", Val.str "d")], none, none⟩] e) ∧
      (∀ e ∈ t2, ∃ i cfg, e = Ev.saveRemote i (cleanConfig cfg)) ∧
      (∀ e ∈ t3, ∃ i, e = Ev.deleteRemote i) ∧
      List.count Ev.reloadRemote
        [Ev.saveRemote (Val.str "d") [("id", Val.str "d")], Ev.reloadRemote] =
        (if ¬(⟨false, false, false⟩ : PushFlags).dryRun = true ∧
            (⟨[Val.str "d"], [], [], [], []⟩ : SyncResult).hasChanges = true then
          1 else 0)) :=
  ⟨by decide, by decide,
    claim_c5_push_order (fun r => some r) [("d", Val.map [("id", Val.str "d")])]
      [] ⟨false, false, false⟩ Oracle.allOk
      [⟨Val.str "d", "added", some [("id", Val.str "d")], none, none⟩]
      ⟨[("d", Val.map [("id", Val.str "d")])],
        [(Val.str "d", [("id", Val.str "d")])],
        ⟨[Val.str "d"], [], [], [], []⟩,
        [Ev.saveRemote (Val.str "d") [("id", Val.str "d")], Ev.reloadRemote]⟩
      (by decide) (by decide)⟩

theorem renPairs_append (a b : List DiffItem) :
    renPairs (a ++ b) = renPairs a ++ renPairs b := by
  simp [renPairs, List.filterMap_append]

theorem renPairs_of_none :
    ∀ {l : List DiffItem}, (∀ it ∈ l, it.newId = none) → renPairs l = [] := by
  intro l
  induction l with
  | nil => intro _; rfl
  | cons it rest ih =>
      intro h
      have h1 := h it (List.mem_cons_self it rest)
      simp only [renPairs, List.filterMap_cons, h1]
      exact ih (fun it' hm => h it' (List.mem_cons_of_mem _ hm))

theorem renPairs_renItems (lE remote : Dict) :
    ∀ rens : List (Val × Val),
      renPairs (rens.map (fun p => DiffItem.mk p.1 "renamed"
          (dlookup lE p.2) (dlookup remote p.1) (some p.2))) =
        rens.filter (fun p => p.2.truthy) := by
  intro rens
  induction rens with
  | nil => rfl
  | cons p rest ih =>
      obtain ⟨fid, cid⟩ := p
      simp only [List.map_cons, renPairs, List.filterMap_cons, List.filter_cons]
      dsimp only
      by_cases ht : cid.truthy = true
      · rw [if_pos ⟨trivial, ht⟩, if_pos ht]
        exact congrArg (List.cons (fid, cid)) ih
      · rw [if_neg (fun hc => ht hc.2), if_neg ht]
        exact ih

theorem diffDeletions_newId {localE : Dict} {renS : List Val} {remote : Dict}
    {it : DiffItem} (h : it ∈ diffDeletions localE renS remote) :
    it.newId = none := by
  simp only [diffDeletions, List.mem_filterMap] at h
  obtain ⟨p, _, hp⟩ := h
  split at hp
  · injection hp with he
    subst he
    rfl
  · cases hp

theorem diffLocals_newId {norm : Rec → Option Rec} {remote : Dict}
    {renT : List Val} :
    ∀ {l : Dict} {items : List DiffItem},
      diffLocals norm remote renT l = .ok items →
      ∀ it ∈ items, it.newId = none := by
  intro l
  induction l with
  | nil =>
      intro items h it hit
      simp only [diffLocals] at h
      cases h
      simp at hit
  | cons p rest ih =>
      intro items h it hit
      obtain ⟨eid, lcfg⟩ := p
      simp only [diffLocals] at h
      by_cases hc : renT.contains eid
      · rw [if_pos hc] at h
        exact ih h it hit
      · rw [if_neg hc] at h
        cases hr : dlookup remote eid with
        | none =>
            rw [hr] at h
            obtain ⟨items', h1, h2⟩ := exceptMap_ok h
            subst h2
            rcases List.mem_cons.mp hit with rfl | hit'
            · rfl
            · exact ih h1 it hit'
        | some rcfg =>
            rw [hr] at h
            dsimp only at h
            cases hn1 : norm (cleanConfig lcfg) with
            | none => rw [hn1] at h; simp at h
            | some ln =>
                rw [hn1] at h
                cases hn2 : norm (ensureIdInConfig eid rcfg) with
                | none => rw [hn2] at h; simp at h
                | some rn =>
                    rw [hn2] at h
                    obtain ⟨items', h1, h2⟩ := exceptMap_ok h
                    subst h2
                    by_cases hpe : pyEqRec ln rn
                    · rw [if_pos hpe] at hit
                      exact ih h1 it hit
                    · rw [if_neg hpe] at hit
                      rcases List.mem_cons.mp hit with rfl | hit'
                      · rfl
                      · exact ih h1 it hit'

theorem reloadPhase_dry (st : PushState) : reloadPhase true st = st := by
  rw [reloadPhase, if_neg (by simp)]

theorem cuPhase_allOk (remote0 : Dict) :
    ∀ (l : Dict) (st : PushState),
      (cuPhase Oracle.allOk false remote0 l st).res = cuApply remote0 l st.res := by
  intro l
  induction l with
  | nil => intro st; simp [cuPhase, cuApply]
  | cons p rest ih =>
      intro st
      obtain ⟨eid, cfg⟩ := p
      simp only [cuPhase]
      rw [if_neg (by simp : ¬(false = true)),
        if_pos (by simp [Oracle.allOk] : Oracle.allOk.saveOk eid = true), ih]
      simp [cuApply]

theorem delPhase_allOk :
    ∀ (l : List Val) (st : PushState),
      (delPhase Oracle.allOk false l st).res =
        { st.res with deleted := st.res.deleted ++ l } := by
  intro l
  induction l with
  | nil => intro st; simp [delPhase]
  | cons eid rest ih =>
      intro st
      simp only [delPhase]
      rw [if_neg (by simp : ¬(false = true)),
        if_pos (by simp [Oracle.allOk] : Oracle.allOk.deleteOk eid = true), ih]
      simp

theorem renamePhase_allOk :
    ∀ (items : List DiffItem) (st : PushState),
      (∀ it ∈ items, it.status = "renamed" → ∀ nid, it.newId = some nid →
        nid.truthy = true →
        ∃ m, recLookup st.files (valFmt it.entityId) = some (Val.map m) ∧
          m.isEmpty = false) →
      ((renPairs items).map (fun p => valFmt p.1)).Nodup →
      (renamePhase Oracle.allOk false items st).res =
        { st.res with renamed := st.res.renamed ++ renPairs items } := by
  intro items
  induction items with
  | nil => intro st _ _; simp [renamePhase, renPairs]
  | cons it rest ih =>
      intro st hready hnd
      cases hnid : it.newId with
      | none =>
          have hrp : renPairs (it :: rest) = renPairs rest := by
            simp [renPairs, List.filterMap_cons, hnid]
          rw [hrp] at hnd
          simp only [renamePhase, hnid]
          rw [ih st (fun it' hm => hready it' (List.mem_cons_of_mem _ hm)) hnd,
            hrp]
      | some nid =>
          by_cases hcond : it.status = "renamed" ∧ nid.truthy = true
          · have hrp : renPairs (it :: rest) =
                (it.entityId, nid) :: renPairs rest := by
              simp [renPairs, List.filterMap_cons, hnid, hcond]
            rw [hrp] at hnd
            simp only [List.map_cons, List.nodup_cons] at hnd
            obtain ⟨m, hlk, hme⟩ :=
              hready it (List.mem_cons_self it rest) hcond.1 nid hnid hcond.2
            simp only [renamePhase, hnid]
            rw [if_pos hcond, if_neg (by simp : ¬(false = true)), hlk]
            dsimp only
            rw [if_neg (by simp [hme] : ¬(m.isEmpty = true)),
              if_pos (by simp [Oracle.allOk] :
                Oracle.allOk.deleteOk it.entityId = true),
              if_pos (by simp [Oracle.allOk] : Oracle.allOk.saveOk nid = true)]
            refine (ih _ ?_ hnd.2).trans ?_
            · intro it' hm' hst' nid' hnid' htr'
              obtain ⟨m', hlk', hme'⟩ :=
                hready it' (List.mem_cons_of_mem _ hm') hst' nid' hnid' htr'
              have hpend : (it'.entityId, nid') ∈ renPairs rest := by
                simp only [renPairs, List.mem_filterMap]
                refine ⟨it', hm', ?_⟩
                rw [hnid']
                dsimp only
                rw [if_pos ⟨hst', htr'⟩]
              have hne : valFmt it'.entityId ≠ valFmt it.entityId := by
                intro he
                exact hnd.1 (List.mem_map.mpr ⟨(it'.entityId, nid'), hpend, he⟩)
              dsimp only
              simp only [renameFile]
              rw [hlk]
              dsimp only
              by_cases h2 : valFmt it'.entityId = valFmt nid
              · exact ⟨m, by rw [h2, recLookup_recInsert_self], hme⟩
              · rw [recLookup_recInsert_ne _ h2, recLookup_filter_ne,
                  if_neg hne]
                exact ⟨m', hlk', hme'⟩
            · dsimp only
              rw [hrp]
              simp
          · have hrp : renPairs (it :: rest) = renPairs rest := by
              simp [renPairs, List.filterMap_cons, hnid, hcond]
            rw [hrp] at hnd
            simp only [renamePhase, hnid]
            rw [if_neg hcond,
              ih st (fun it' hm => hready it' (List.mem_cons_of_mem _ hm)) hnd,
              hrp]

/-- C6: with duplicate-free local filenames, a dry-run push leaves the
local files, the remote store and the event trace untouched, its
`SyncResult` classifies every would-be action exactly as the corresponding
real (all-calls-succeed) run does, and a diff computed on the untouched
stores reproduces the same items. -/
theorem claim_c6_dry_run (norm : Rec → Option Rec) (files : Files)
    (remote0 : Dict) (force sd : Bool) (O : Oracle)
    (items : List DiffItem) (outD outR : PushState)
    (hnd : (files.map Prod.fst).Nodup)
    (hd : diffSimple norm files remote0 = .ok items)
    (hdry : pushSimple norm files remote0 ⟨force, sd, true⟩ O = .ok outD)
    (hreal : pushSimple norm files remote0 ⟨force, sd, false⟩ Oracle.allOk =
      .ok outR) :
    outD.files = files ∧ outD.remote = remote0 ∧ outD.trace = [] ∧
      outD.res = outR.res ∧
      diffSimple norm outD.files outD.remote = .ok items := by
  obtain ⟨itD, hdD, houtD⟩ := pushSimple_ok hdry
  rw [hd] at hdD
  injection hdD with hiD
  subst hiD
  obtain ⟨itR, hdR, houtR⟩ := pushSimple_ok hreal
  rw [hd] at hdR
  injection hdR with hiR
  subst hiR
  obtain ⟨addMods, hAM, hitems⟩ := diffSimple_ok hd
  have hready : ∀ it ∈ items, it.status = "renamed" →
      ∀ nid, it.newId = some nid → nid.truthy = true →
      ∃ m, recLookup files (valFmt it.entityId) = some (Val.map m) ∧
        m.isEmpty = false := by
    intro it hmem hst nid hnid htr
    rw [hitems] at hmem
    rcases List.mem_append.mp hmem with hmem1 | hmemC
    · rcases List.mem_append.mp hmem1 with hmemA | hmemB
      · obtain ⟨p, hp, hpe⟩ := List.mem_map.mp hmemA
        obtain ⟨fid, cid⟩ := p
        subst hpe
        dsimp only
        obtain ⟨stem, m, hmf, hmne, hfid, hid, hcid, hdm⟩ :=
          (mem_detectRenames_iff hnd fid cid).mp hp
        subst hfid
        refine ⟨m, ?_, by simpa using hmne⟩
        have hlk : recLookup files stem = some (Val.map m) :=
          recLookup_of_mem_nodup hmf hnd
        simpa [valFmt] using hlk
      · have hno := diffLocals_newId hAM it hmemB
        rw [hno] at hnid
        cases hnid
    · have hno := diffDeletions_newId hmemC
      rw [hno] at hnid
      cases hnid
  have hrpitems : renPairs items =
      (detectRenames files remote0).filter (fun p => p.2.truthy) := by
    rw [hitems, renPairs_append, renPairs_append, renPairs_renItems,
      renPairs_of_none (fun it hm => diffLocals_newId hAM it hm),
      renPairs_of_none (fun it hm => diffDeletions_newId hm)]
    simp
  have hnodup : ((renPairs items).map (fun p => valFmt p.1)).Nodup := by
    rw [hrpitems]
    have hsub : List.Sublist
        (((detectRenames files remote0).filter
          (fun p => p.2.truthy)).map (fun p => valFmt p.1))
        ((detectRenames files remote0).map (fun p => valFmt p.1)) :=
      List.Sublist.map _ (List.filter_sublist _)
    refine List.Nodup.sublist hsub ?_
    rw [detectRenames_eq hnd]
    have h2 : (files.filterMap (renameTrigger remote0)).map
          (fun p => valFmt p.1) =
        ((files.filterMap (renameTrigger remote0)).map Prod.fst).map valFmt :=
      by rw [List.map_map]; rfl
    rw [h2]
    refine List.Nodup.map_on ?_ (filterMap_trigger_fst_nodup hnd)
    intro x hx y hy he
    obtain ⟨qx, hqx, hqx1⟩ := List.mem_map.mp hx
    obtain ⟨sx, cx, _, hsx⟩ := mem_filterMap_trigger_fst hqx
    obtain ⟨qy, hqy, hqy1⟩ := List.mem_map.mp hy
    obtain ⟨sy, cy, _, hsy⟩ := mem_filterMap_trigger_fst hqy
    rw [← hqx1, hsx, ← hqy1, hsy] at he ⊢
    simp only [valFmt] at he
    rw [he]
  have hres1 : (renamePhase Oracle.allOk false items
        ⟨files, remote0, SyncResult.empty, []⟩).res =
      { SyncResult.empty with
        renamed := SyncResult.empty.renamed ++ renPairs items } :=
    renamePhase_allOk items ⟨files, remote0, SyncResult.empty, []⟩
      hready hnodup
  rw [pushCore] at houtD houtR
  dsimp only at houtD houtR
  rw [renamePhase_dry, cuPhase_dry, reloadPhase_dry] at houtD
  have hRres : outR.res =
      (if sd = true then
        { cuApply remote0
            (cuItems force (getLocalEntities files) (processedIds items) items)
            { SyncResult.empty with
              renamed := SyncResult.empty.renamed ++ renPairs items } with
          deleted := (cuApply remote0
            (cuItems force (getLocalEntities files) (processedIds items) items)
            { SyncResult.empty with
              renamed := SyncResult.empty.renamed ++ renPairs items }).deleted ++
            delItems force (getLocalEntities files) remote0
              (processedIds items) items }
      else
        cuApply remote0
          (cuItems force (getLocalEntities files) (processedIds items) items)
          { SyncResult.empty with
            renamed := SyncResult.empty.renamed ++ renPairs items }) := by
    rw [houtR, (reloadPhase_trace _ _).2]
    by_cases hsd : sd = true
    · rw [if_pos hsd, if_pos hsd, delPhase_allOk, cuPhase_allOk, hres1]
    · rw [if_neg hsd, if_neg hsd, cuPhase_allOk, hres1]
  by_cases hsd : sd = true
  · rw [if_pos hsd, delPhase_dry] at houtD
    rw [houtD]
    refine ⟨rfl, rfl, rfl, ?_, hd⟩
    rw [hRres, if_pos hsd, cuApply]
  · rw [if_neg hsd] at houtD
    rw [houtD]
    refine ⟨rfl, rfl, rfl, ?_, hd⟩
    rw [hRres, if_neg hsd, cuApply]

theorem claim_c6_witness :
    ([("d", Val.map [("id", Val.str "d")])].map
      (Prod.fst (α := String) (β := Val))).Nodup ∧
    ((⟨[("d", Val.map [("id", Val.str "d")])], [],
        ⟨[Val.str "d"], [], [], [], []⟩, []⟩ : PushState).files =
        [("d", Val.map [("id", Val.str "d")])] ∧
      (⟨[("d", Val.map [("id", Val.str "d")])], [],
        ⟨[Val.str "d"], [], [], [], []⟩, []⟩ : PushState).remote = [] ∧
      (⟨[("d", Val.map [("id", Val.str "d")])], [],
        ⟨[Val.str "d"], [], [], [], []⟩, []⟩ : PushState).trace = [] ∧
      (⟨[("d", Val.map [("id", Val.str "d")])], [],
        ⟨[Val.str "d"], [], [], [], []⟩, []⟩ : PushState).res =
        (⟨[("d", Val.map [("id", Val.str "d")])],
          [(Val.str "d", [("id", Val.str "d")])],
          ⟨[Val.str "d"], [], [], [], []⟩,
          [Ev.saveRemote (Val.str "d") [("id", Val.str "d")],
            Ev.reloadRemote]⟩ : PushState).res ∧
      diffSimple (fun r => some r)
        (⟨[("d", Val.map [("id", Val.str "d")])], [],
          ⟨[Val.str "d"], [], [], [], []⟩, []⟩ : PushState).files
        (⟨[("d", Val.map [("id", Val.str "d")])], [],
          ⟨[Val.str "d"], [], [], [], []⟩, []⟩ : PushState).remote =
        .ok [⟨Val.str "d", "added", some [("id", Val.str "d")], none, none⟩]) :=
  ⟨by decide,
    claim_c6_dry_run (fun r => some r) [("d", Val.map [("id", Val.str "d")])]
      [] false false Oracle.allOk
      [⟨Val.str "d", "added", some [("id", Val.str "d")], none, none⟩]
      ⟨[("d", Val.map [("id", Val.str "d")])], [],
        ⟨[Val.str "d"], [], [], [], []⟩, []⟩
      ⟨[("d", Val.map [("id", Val.str "d")])],
        [(Val.str "d", [("id", Val.str "d")])],
        ⟨[Val.str "d"], [], [], [], []⟩,
        [Ev.saveRemote (Val.str "d") [("id", Val.str "d")], Ev.reloadRemote]⟩
      (by decide) (by decide) (by decide) (by decide)⟩

theorem cleanConfig_no_underscore {r : Rec} {k : String} {v : Val}
    (h : (k, v) ∈ cleanConfig r) : startsUnderscore k = false := by
  have h2 := (List.mem_filter.mp h).2
  simpa using h2

theorem mem_cleanConfig_iff (r : Rec) (k : String) (v : Val) :
    (k, v) ∈ cleanConfig r ↔ ((k, v) ∈ r ∧ startsUnderscore k = false) := by
  rw [cleanConfig, List.mem_filter]
  simp

theorem diffLocals_snap {norm : Rec → Option Rec} {remote : Dict}
    {renT : List Val} :
    ∀ {l : Dict} {items : List DiffItem},
      diffLocals norm remote renT l = .ok items →
      ∀ it ∈ items, ∃ lcfg : Rec,
        it.localSnap = some (cleanConfig lcfg) ∨
        ∃ ln, it.localSnap = some ln ∧ norm (cleanConfig lcfg) = some ln := by
  intro l
  induction l with
  | nil =>
      intro items h it hit
      simp only [diffLocals] at h
      cases h
      simp at hit
  | cons p rest ih =>
      intro items h it hit
      obtain ⟨eid, lcfg⟩ := p
      simp only [diffLocals] at h
      by_cases hc : renT.contains eid
      · rw [if_pos hc] at h
        exact ih h it hit
      · rw [if_neg hc] at h
        cases hr : dlookup remote eid with
        | none =>
            rw [hr] at h
            obtain ⟨items', h1, h2⟩ := exceptMap_ok h
            subst h2
            rcases List.mem_cons.mp hit with rfl | hit'
            · exact ⟨lcfg, Or.inl rfl⟩
            · exact ih h1 it hit'
        | some rcfg =>
            rw [hr] at h
            dsimp only at h
            cases hn1 : norm (cleanConfig lcfg) with
            | none => rw [hn1] at h; simp at h
            | some ln =>
                rw [hn1] at h
                cases hn2 : norm (ensureIdInConfig eid rcfg) with
                | none => rw [hn2] at h; simp at h
                | some rn =>
                    rw [hn2] at h
                    obtain ⟨items', h1, h2⟩ := exceptMap_ok h
                    subst h2
                    by_cases hpe : pyEqRec ln rn
                    · rw [if_pos hpe] at hit
                      exact ih h1 it hit
                    · rw [if_neg hpe] at hit
                      rcases List.mem_cons.mp hit with rfl | hit'
                      · exact ⟨lcfg, Or.inr ⟨ln, rfl, hn1⟩⟩
                      · exact ih h1 it hit'

theorem pushSimple_trace_shape {norm : Rec → Option Rec} {files : Files}
    {remote0 : Dict} {flags : PushFlags} {O : Oracle} {out : PushState}
    (hp : pushSimple norm files remote0 flags O = .ok out) :
    ∃ items, diffSimple norm files remote0 = .ok items ∧
      ∀ e ∈ out.trace, renameEvOf items e ∨
        (∃ i cfg, e = Ev.saveRemote i (cleanConfig cfg)) ∨
        (∃ i, e = Ev.deleteRemote i) ∨ e = Ev.reloadRemote := by
  obtain ⟨items, hd0, hout⟩ := pushSimple_ok hp
  refine ⟨items, hd0, ?_⟩
  rw [pushCore] at hout
  obtain ⟨t1, h1, a1⟩ := renamePhase_trace O flags.dryRun items
    ⟨files, remote0, SyncResult.empty, []⟩
  obtain ⟨t2, h2, a2⟩ := cuPhase_trace O flags.dryRun remote0
    (cuItems flags.force (getLocalEntities files) (processedIds items) items)
    (renamePhase O flags.dryRun items ⟨files, remote0, SyncResult.empty, []⟩)
  set st2 := cuPhase O flags.dryRun remote0
    (cuItems flags.force (getLocalEntities files) (processedIds items) items)
    (renamePhase O flags.dryRun items ⟨files, remote0, SyncResult.empty, []⟩)
    with hst2
  intro e he
  by_cases hsd : flags.syncDeletions = true
  · rw [if_pos hsd] at hout
    obtain ⟨t3, h3, a3⟩ := delPhase_trace O flags.dryRun
      (delItems flags.force (getLocalEntities files) remote0
        (processedIds items) items) st2
    obtain ⟨hrt, _⟩ := reloadPhase_trace flags.dryRun
      (delPhase O flags.dryRun
        (delItems flags.force (getLocalEntities files) remote0
          (processedIds items) items) st2)
    rw [hout, hrt, h3, h2, h1] at he
    simp only [List.nil_append, List.mem_append] at he
    rcases he with ((he1 | he2) | he3) | he4
    · exact Or.inl (a1 e he1)
    · exact Or.inr (Or.inl (a2 e he2))
    · exact Or.inr (Or.inr (Or.inl (a3 e he3)))
    · right; right; right
      revert he4
      split
      · intro he4
        simpa using he4
      · intro he4
        simp at he4
  · rw [if_neg hsd] at hout
    obtain ⟨hrt, _⟩ := reloadPhase_trace flags.dryRun st2
    rw [hout, hrt, h2, h1] at he
    simp only [List.nil_append, List.mem_append] at he
    rcases he with (he1 | he2) | he4
    · exact Or.inl (a1 e he1)
    · exact Or.inr (Or.inl (a2 e he2))
    · right; right; right
      revert he4
      split
      · intro he4
        simpa using he4
      · intro he4
        simp at he4

/-- C9: `clean_config` keeps exactly the non-underscore-keyed pairs of a
config, unchanged and in order; every payload `push` hands to
`save_remote` is underscore-free, as is the local side of every
`added`/`modified` diff item, provided the normalizer invents no
underscore keys — which every declared entity schema satisfies. -/
theorem claim_c9_clean_config (norm : Rec → Option Rec) (files : Files)
    (remote0 : Dict) (flags : PushFlags) (O : Oracle) (out : PushState)
    (items : List DiffItem)
    (hnorm : ∀ r o, norm r = some o → ∀ k, startsUnderscore k = true →
      k ∈ recKeys o → k ∈ recKeys r)
    (hp : pushSimple norm files remote0 flags O = .ok out)
    (hd : diffSimple norm files remote0 = .ok items) :
    (∀ r : Rec, List.Sublist (cleanConfig r) r ∧
      ∀ k v, ((k, v) ∈ cleanConfig r ↔
        ((k, v) ∈ r ∧ startsUnderscore k = false))) ∧
    (∀ e ∈ out.trace, ∀ i payload, e = Ev.saveRemote i payload →
      ∀ k v, (k, v) ∈ payload → startsUnderscore k = false) ∧
    (∀ it ∈ items, (it.status = "added" ∨ it.status = "modified") →
      ∀ snap, it.localSnap = some snap →
      ∀ k v, (k, v) ∈ snap → startsUnderscore k = false) ∧
    (∀ s ∈ haSchemas, ∀ r o, s.normalize r = some o →
      ∀ k, startsUnderscore k = true → k ∈ recKeys o → k ∈ recKeys r) := by
  refine ⟨?_, ?_, ?_, ?_⟩
  · intro r
    exact ⟨List.filter_sublist r, fun k v => mem_cleanConfig_iff r k v⟩
  · obtain ⟨items0, _, hsh⟩ := pushSimple_trace_shape hp
    intro e he i payload hepl k v hkv
    subst hepl
    rcases hsh _ he with h1 | h2 | h3 | h4
    · obtain ⟨it, _, _, nid, _, hc⟩ := h1
      rcases hc with hc | ⟨m, hc⟩ | hc
      · cases hc
      · injection hc with _ hpl
        subst hpl
        exact cleanConfig_no_underscore hkv
      · cases hc
    · obtain ⟨i', cfg, hc⟩ := h2
      injection hc with _ hpl
      subst hpl
      exact cleanConfig_no_underscore hkv
    · obtain ⟨i', hc⟩ := h3
      cases hc
    · cases h4
  · obtain ⟨addMods, hAM, hitems⟩ := diffSimple_ok hd
    intro it hmem hst snap hsnap k v hkv
    rw [hitems] at hmem
    rcases List.mem_append.mp hmem with hmem1 | hmemC
    · rcases List.mem_append.mp hmem1 with hmemA | hmemB
      · obtain ⟨p, _, hpe⟩ := List.mem_map.mp hmemA
        rw [← hpe] at hst
        rcases hst with hst | hst <;> simp at hst
      · obtain ⟨lcfg, hc⟩ := diffLocals_snap hAM it hmemB
        rcases hc with hc | ⟨ln, hln, hn1⟩
        · rw [hsnap] at hc
          injection hc with hc
          rw [hc] at hkv
          exact cleanConfig_no_underscore hkv
        · rw [hsnap] at hln
          injection hln with hln
          subst hln
          cases hb : startsUnderscore k with
          | false => rfl
          | true =>
              exfalso
              have hko : k ∈ recKeys snap :=
                List.mem_map.mpr ⟨(k, v), hkv, rfl⟩
              have hkr := hnorm _ _ hn1 k hb hko
              simp only [recKeys, List.mem_map] at hkr
              obtain ⟨⟨k', v'⟩, hkv', hke⟩ := hkr
              dsimp only at hke
              subst hke
              have := cleanConfig_no_underscore hkv'
              rw [this] at hb
              cases hb
    · simp only [diffDeletions, List.mem_filterMap] at hmemC
      obtain ⟨p, _, hpf⟩ := hmemC
      split at hpf
      · injection hpf with he
        rw [← he] at hst
        rcases hst with hst | hst <;> simp at hst
      · cases hpf
  · intro s hs r o hno k hku hko
    rcases normalize_keys_subset hno k hko with hn | hr
    · exfalso
      have hall : ∀ s' ∈ haSchemas, ∀ n ∈ s'.fields.map FieldSpec.name,
          startsUnderscore n = false := by decide
      have := hall s hs k hn
      rw [this] at hku
      cases hku
    · exact hr

theorem claim_c9_witness :
    (∀ r : Rec, List.Sublist (cleanConfig r) r ∧
      ∀ k v, ((k, v) ∈ cleanConfig r ↔
        ((k, v) ∈ r ∧ startsUnderscore k = false))) ∧
    (∀ e ∈ (⟨[("d", Val.map [("id", Val.str "d")])],
        [(Val.str "d", [("id", Val.str "d")])],
        ⟨[Val.str "d"], [], [], [], []⟩,
        [Ev.saveRemote (Val.str "d") [("id", Val.str "d")],
          Ev.reloadRemote]⟩ : PushState).trace,
      ∀ i payload, e = Ev.saveRemote i payload →
      ∀ k v, (k, v) ∈ payload → startsUnderscore k = false) ∧
    (∀ it ∈ [(⟨Val.str "d", "added", some [("id", Val.str "d")], none,
        none⟩ : DiffItem)],
      (it.status = "added" ∨ it.status = "modified") →
      ∀ snap, it.localSnap = some snap →
      ∀ k v, (k, v) ∈ snap → startsUnderscore k = false) ∧
    (∀ s ∈ haSchemas, ∀ r o, s.normalize r = some o →
      ∀ k, startsUnderscore k = true → k ∈ recKeys o → k ∈ recKeys r) :=
  claim_c9_clean_config (fun r => some r)
    [("d", Val.map [("id", Val.str "d")])] [] ⟨false, false, false⟩
    Oracle.allOk
    ⟨[("d", Val.map [("id", Val.str "d")])],
      [(Val.str "d", [("id", Val.str "d")])],
      ⟨[Val.str "d"], [], [], [], []⟩,
      [Ev.saveRemote (Val.str "d") [("id", Val.str "d")], Ev.reloadRemote]⟩
    [⟨Val.str "d", "added", some [("id", Val.str "d")], none, none⟩]
    (fun r o h k _ hk => by cases h; exact hk)
    (by decide) (by decide)

theorem pullCELoop_step (sch : Option Schema) (localE : Dict) (W : Val → Bool)
    (p : Val × Rec) (rest : Dict) (st : CEPullState) :
    ∃ st', pullCELoop sch localE W (p :: rest) st =
        pullCELoop sch localE W rest st' ∧
      (∀ e ∈ st.res.errors, e ∈ st'.res.errors) ∧
      (∀ i ∈ st.res.created, i ∈ st'.res.created) := by
  obtain ⟨eid, data⟩ := p
  simp only [pullCELoop]
  repeat' split
  all_goals
    first
      | exact ⟨_, rfl, fun e he => he, fun i hi => hi⟩
      | exact ⟨_, rfl, fun e he => List.mem_append_left _ he,
          fun i hi => hi⟩
      | exact ⟨_, rfl, fun e he => he,
          fun i hi => List.mem_append_left _ hi⟩

theorem pullCELoop_mono (sch : Option Schema) (localE : Dict) (W : Val → Bool) :
    ∀ (l : Dict) (st : CEPullState),
      (∀ e ∈ st.res.errors, e ∈ (pullCELoop sch localE W l st).res.errors) ∧
      (∀ i ∈ st.res.created, i ∈ (pullCELoop sch localE W l st).res.created) := by
  intro l
  induction l with
  | nil => intro st; exact ⟨fun e he => he, fun i hi => hi⟩
  | cons p rest ih =>
      intro st
      obtain ⟨st', hstep, hE, hC⟩ := pullCELoop_step sch localE W p rest st
      rw [hstep]
      exact ⟨fun e he => (ih st').1 e (hE e he),
        fun i hi => (ih st').2 i (hC i hi)⟩

theorem pullCELoop_isolate (sch : Option Schema) (localE : Dict)
    (W : Val → Bool) :
    ∀ (l : Dict) (st : CEPullState) (eid : Val) (cfg : Rec),
      (eid, cfg) ∈ l → dlookup localE eid = none →
      ((W eid = false →
          (eid, "dump_yaml failed") ∈
            (pullCELoop sch localE W l st).res.errors) ∧
        (W eid = true →
          eid ∈ (pullCELoop sch localE W l st).res.created)) := by
  intro l
  induction l with
  | nil => intro st eid cfg hmem; simp at hmem
  | cons p rest ih =>
      intro st eid cfg hmem hloc
      rcases List.mem_cons.mp hmem with heq | hmem'
      · subst heq
        simp only [pullCELoop]
        rw [hloc]
        dsimp only
        constructor
        · intro hw
          rw [if_neg (by simp [hw])]
          exact (pullCELoop_mono sch localE W rest _).1 _
            (List.mem_append_right _ (by simp))
        · intro hw
          rw [if_pos hw]
          exact (pullCELoop_mono sch localE W rest _).2 _
            (List.mem_append_right _ (by simp))
      · obtain ⟨st', hstep, _, _⟩ := pullCELoop_step sch localE W p rest st
        rw [hstep]
        exact ih st' eid cfg hmem' hloc

theorem pullCEDeletions_mono (remote0 : Dict) :
    ∀ (l : Dict) (files : Files) (res : SyncResult),
      (pullCEDeletions remote0 l files res).1.errors = res.errors ∧
      (pullCEDeletions remote0 l files res).1.created = res.created := by
  intro l
  induction l with
  | nil => intro files res; exact ⟨rfl, rfl⟩
  | cons p rest ih =>
      intro files res
      obtain ⟨eid, ldata⟩ := p
      simp only [pullCEDeletions]
      split
      · exact ih _ _
      · split
        · split
          · split
            · exact ih _ _
            · exact ih _ _
          · exact ih _ _
        · exact ih _ _

/-- C3, counterexample: `SimpleEntitySyncer.pull` (`base.py`) catches
nothing per entity — with two remote entities and the first one's local
write failing, the whole pull aborts with the exception, records no
`(key, message)` pair, and never processes the second entity. -/
theorem claim_c3_counterexample :
    pullSimple (fun r => some r) []
      [(Val.str "a", [("id", Val.str "a")]),
       (Val.str "b", [("id", Val.str "b")])]
      false (fun v => v != Val.str "a") = .error "dump_yaml failed" := by
  decide

/-- C3 (amended): the per-entity isolation holds for
`ConfigEntrySyncer.pull` (`config_entries.py`): a remote entity whose
local write raises gets `(key, "dump_yaml failed")` appended to the
result's error list, and any other remote entity whose write succeeds is
still created — one failing entity never aborts that batch.
(`SimpleEntitySyncer.pull` instead lets the exception propagate.) -/
theorem claim_c3_amended (sch : Option Schema) (remote0 : Dict)
    (files0 : Files) (sd : Bool) (W : Val → Bool) (eid : Val) (cfg : Rec)
    (hmem : (eid, cfg) ∈ remote0)
    (hloc : dlookup (getLocalEntitiesCE files0) eid = none) :
    (W eid = false →
      (eid, "dump_yaml failed") ∈
        (pullConfigEntry sch remote0 files0 sd W).1.errors) ∧
    (W eid = true →
      eid ∈ (pullConfigEntry sch remote0 files0 sd W).1.created) := by
  have hiso := pullCELoop_isolate sch (getLocalEntitiesCE files0) W remote0
    ⟨[], files0, SyncResult.empty⟩ eid cfg hmem hloc
  rw [pullConfigEntry]
  by_cases hsd : sd = true
  · rw [if_pos hsd]
    obtain ⟨hdE, hdC⟩ := pullCEDeletions_mono remote0
      (getLocalEntitiesCE files0)
      (pullCELoop sch (getLocalEntitiesCE files0) W remote0
        ⟨[], files0, SyncResult.empty⟩).files
      (pullCELoop sch (getLocalEntitiesCE files0) W remote0
        ⟨[], files0, SyncResult.empty⟩).res
    exact ⟨fun hw => by rw [hdE]; exact hiso.1 hw,
      fun hw => by rw [hdC]; exact hiso.2 hw⟩
  · rw [if_neg hsd]
    exact hiso

theorem claim_c3_witness :
    ((Val.str "a", "dump_yaml failed") ∈
      (pullConfigEntry none
        [(Val.str "a", [("name", Val.str "A")]),
         (Val.str "b", [("name", Val.str "B")])]
        [] false (fun v => v != Val.str "a")).1.errors) ∧
    (Val.str "b" ∈
      (pullConfigEntry none
        [(Val.str "a", [("name", Val.str "A")]),
         (Val.str "b", [("name", Val.str "B")])]
        [] false (fun v => v != Val.str "a")).1.created) :=
  ⟨(claim_c3_amended none
      [(Val.str "a", [("name", Val.str "A")]),
       (Val.str "b", [("name", Val.str "B")])]
      [] false (fun v => v != Val.str "a") (Val.str "a")
      [("name", Val.str "A")] (by decide) (by decide)).1 (by decide),
    (claim_c3_amended none
      [(Val.str "a", [("name", Val.str "A")]),
       (Val.str "b", [("name", Val.str "B")])]
      [] false (fun v => v != Val.str "a") (Val.str "b")
      [("name", Val.str "B")] (by decide) (by decide)).2 (by decide)⟩

/-- C7, counterexample: both directions of the claimed biconditional
fail.  A configured `push`/`pull` over all syncers whose calls all return
exits 0 even though the returned result records a per-entity error; and a
configured `diff` of an unknown path records no per-entity error yet
exits 1 (`typer.Exit(1)` at `cli.py:168`), as does a configured `diff`
whose one syncer returns a single item (the `item.file_path`
`AttributeError` in `_diff`). -/
theorem claim_c7_counterexample :
    (⟨[Val.str "x"], [], [], [], [(Val.str "a", "boom")]⟩ :
      SyncResult).hasErrors = true ∧
    pushCmdExit ⟨"http://ha", "tok"⟩ none none
      [.ok ⟨[Val.str "x"], [], [], [], [(Val.str "a", "boom")]⟩] = 0 ∧
    pullCmdExit ⟨"http://ha", "tok"⟩ none none
      [.ok ⟨[Val.str "x"], [], [], [], [(Val.str "a", "boom")]⟩] = 0 ∧
    diffCmdExit ⟨"http://ha", "tok"⟩ (some ["bogus"]) none [] = 1 ∧
    diffCmdExit ⟨"http://ha", "tok"⟩ (some ["automations"]) none
      [.ok [⟨Val.str "d", "added", some [("id", Val.str "d")], none,
        none⟩]] = 1 := by
  decide

theorem resolvePathToSyncers_error {parts : Option (List String)}
    {discovered : Option (List String)} {e : Nat}
    (h : resolvePathToSyncers parts discovered = .error e) : e = 1 := by
  unfold resolvePathToSyncers at h
  repeat' split at h
  all_goals first
    | (injection h with h2; exact h2.symm)
    | injection h

/-- C7 (amended): the exit code of `pull`, `push` and `diff` never
reflects the recorded per-entity errors.  It is 1 when `HA_URL`/`HA_TOKEN`
is missing; `resolve_path_to_syncers` either yields syncers or raises
`typer.Exit(1)` (unknown path), which exits 1; with the path resolved, a
raising syncer call exits 1, and a run whose calls all return exits 0
whatever errors the results record — except that `diff` exits 0 exactly
when every syncer returned an empty item list, because any collected item
crashes `_diff` on the missing `item.file_path` field. -/
theorem claim_c7_exit_codes (c : CliConfig) (parts : Option (List String))
    (discovered : Option (List String))
    (rs : List (Except String SyncResult))
    (ds : List (Except String (List DiffItem))) :
    (cliConfigured c = false →
      pullCmdExit c parts discovered rs = 1 ∧
      pushCmdExit c parts discovered rs = 1 ∧
      diffCmdExit c parts discovered ds = 1) ∧
    ((∃ specs, resolvePathToSyncers parts discovered = .ok specs) ∨
      resolvePathToSyncers parts discovered = .error 1) ∧
    (cliConfigured c = true →
      resolvePathToSyncers parts discovered = .error 1 →
      pullCmdExit c parts discovered rs = 1 ∧
      pushCmdExit c parts discovered rs = 1 ∧
      diffCmdExit c parts discovered ds = 1) ∧
    (cliConfigured c = true →
      ∀ specs, resolvePathToSyncers parts discovered = .ok specs →
      ((∀ r ∈ rs, ∃ res, r = .ok res) →
        pullCmdExit c parts discovered rs = 0 ∧
        pushCmdExit c parts discovered rs = 0) ∧
      ((∃ r ∈ rs, ∃ e, r = .error e) →
        pullCmdExit c parts discovered rs = 1 ∧
        pushCmdExit c parts discovered rs = 1) ∧
      (diffCmdExit c parts discovered ds = 0 ↔ ∀ r ∈ ds, r = .ok [])) ∧
    (∀ r ∈ rs, ∀ res, r = .ok res → res.hasChanges = true →
      res.hasErrors = true →
      pullSummaryLine res false =
        "Completed with " ++ toString res.errors.length ++ " errors" ∧
      pushSummaryLine res =
        "Completed with " ++ toString res.errors.length ++ " errors") := by
  refine ⟨?_, ?_, ?_, ?_, ?_⟩
  · intro hc
    have hc' : ¬cliConfigured c = true := by simp [hc]
    refine ⟨?_, ?_, ?_⟩ <;>
      simp only [pullCmdExit, pushCmdExit, diffCmdExit, if_pos hc']
  · cases hres : resolvePathToSyncers parts discovered with
    | ok specs => exact Or.inl ⟨specs, rfl⟩
    | error e =>
        right
        have he : e = 1 := resolvePathToSyncers_error hres
        rw [he]
  · intro hc hres
    have hc' : ¬¬cliConfigured c = true := by simp [hc]
    refine ⟨?_, ?_, ?_⟩ <;>
      simp only [pullCmdExit, pushCmdExit, diffCmdExit, if_neg hc', hres]
  · intro hc specs hres
    have hc' : ¬¬cliConfigured c = true := by simp [hc]
    refine ⟨?_, ?_, ?_⟩
    · intro hall
      have hany : rs.any exceptRaised = false := by
        rw [List.any_eq_false]
        intro r hr
        obtain ⟨res, rfl⟩ := hall r hr
        simp [exceptRaised]
      constructor <;>
        simp only [pullCmdExit, pushCmdExit, if_neg hc', hres, hany,
          Bool.false_eq_true, if_false]
    · intro herr
      obtain ⟨r, hr, e, rfl⟩ := herr
      have hany : rs.any exceptRaised = true :=
        List.any_eq_true.mpr ⟨_, hr, rfl⟩
      constructor <;>
        simp only [pullCmdExit, pushCmdExit, if_neg hc', hres, hany,
          if_true]
    · simp only [diffCmdExit, if_neg hc', hres]
      constructor
      · intro h0 r hr
        by_cases hb : (ds.any (fun r =>
            match r with
            | .error _ => true
            | .ok items => ¬items.isEmpty)) = true
        · rw [if_pos hb] at h0
          cases h0
        · have hall := List.any_eq_false.mp (by simpa using hb)
          have hfr := hall r hr
          cases r with
          | error e => simp at hfr
          | ok items =>
              simp only [Bool.not_eq_true] at hfr
              have : items = [] := by
                cases items with
                | nil => rfl
                | cons a l => simp [List.isEmpty] at hfr
              rw [this]
      · intro hall
        have hany : (ds.any (fun r =>
            match r with
            | .error _ => true
            | .ok items => ¬items.isEmpty)) = false := by
          rw [List.any_eq_false]
          intro r hr
          rw [hall r hr]
          simp
        rw [hany]
        simp
  · intro r _ res _ hc he
    constructor
    · rw [pullSummaryLine, if_neg (by simp [hc]), if_pos he]
    · rw [pushSummaryLine, if_neg (by simp [hc]), if_pos he]

theorem claim_c7_witness :
    ((cliConfigured ⟨"http://ha", "tok"⟩ = false →
      pullCmdExit ⟨"http://ha", "tok"⟩ none none
        [.ok ⟨[Val.str "x"], [], [], [], [(Val.str "a", "boom")]⟩] = 1 ∧
      pushCmdExit ⟨"http://ha", "tok"⟩ none none
        [.ok ⟨[Val.str "x"], [], [], [], [(Val.str "a", "boom")]⟩] = 1 ∧
      diffCmdExit ⟨"http://ha", "tok"⟩ none none [] = 1) ∧
    ((∃ specs, resolvePathToSyncers none none = .ok specs) ∨
      resolvePathToSyncers none none = .error 1) ∧
    (cliConfigured ⟨"http://ha", "tok"⟩ = true →
      resolvePathToSyncers none none = .error 1 →
      pullCmdExit ⟨"http://ha", "tok"⟩ none none
        [.ok ⟨[Val.str "x"], [], [], [], [(Val.str "a", "boom")]⟩] = 1 ∧
      pushCmdExit ⟨"http://ha", "tok"⟩ none none
        [.ok ⟨[Val.str "x"], [], [], [], [(Val.str "a", "boom")]⟩] = 1 ∧
      diffCmdExit ⟨"http://ha", "tok"⟩ none none [] = 1) ∧
    (cliConfigured ⟨"http://ha", "tok"⟩ = true →
      ∀ specs, resolvePathToSyncers none none = .ok specs →
      ((∀ r ∈ [(.ok ⟨[Val.str "x"], [], [], [],
            [(Val.str "a", "boom")]⟩ : Except String SyncResult)],
          ∃ res, r = .ok res) →
        pullCmdExit ⟨"http://ha", "tok"⟩ none none
          [.ok ⟨[Val.str "x"], [], [], [], [(Val.str "a", "boom")]⟩] = 0 ∧
        pushCmdExit ⟨"http://ha", "tok"⟩ none none
          [.ok ⟨[Val.str "x"], [], [], [], [(Val.str "a", "boom")]⟩] = 0) ∧
      ((∃ r ∈ [(.ok ⟨[Val.str "x"], [], [], [],
            [(Val.str "a", "boom")]⟩ : Except String SyncResult)],
          ∃ e, r = .error e) →
        pullCmdExit ⟨"http://ha", "tok"⟩ none none
          [.ok ⟨[Val.str "x"], [], [], [], [(Val.str "a", "boom")]⟩] = 1 ∧
        pushCmdExit ⟨"http://ha", "tok"⟩ none none
          [.ok ⟨[Val.str "x"], [], [], [], [(Val.str "a", "boom")]⟩] = 1) ∧
      (diffCmdExit ⟨"http://ha", "tok"⟩ none none [] = 0 ↔
        ∀ r ∈ ([] : List (Except String (List DiffItem))), r = .ok [])) ∧
    (∀ r ∈ [(.ok ⟨[Val.str "x"], [], [], [],
          [(Val.str "a", "boom")]⟩ : Except String SyncResult)],
      ∀ res, r = .ok res → res.hasChanges = true → res.hasErrors = true →
      pullSummaryLine res false =
        "Completed with " ++ toString res.errors.length ++ " errors" ∧
      pushSummaryLine res =
        "Completed with " ++ toString res.errors.length ++ " errors")) :=
  claim_c7_exit_codes ⟨"http://ha", "tok"⟩ none none
    [.ok ⟨[Val.str "x"], [], [], [], [(Val.str "a", "boom")]⟩] []

end HaSync
